import Mathlib

/-!
Verification of the agvault vault-synchronization logic (a shallow embedding of
`src/config.ts`, `src/vault.ts` and `src/gh.ts`).

Modelling conventions:
* A filesystem path is a list of segments (`Path`).  The source joins segments
  with `/` (node `path.join`, and the explicit `prefix + "/" + name` in its
  directory walks); `joinPath` recovers the string form where the source
  manipulates relative paths as strings.
* The project-side filesystem (the place `fs.writeFileSync` / `cpSync` read and
  write, including temp directories) is a flat structure `Fs`: an association
  list of file paths to contents plus a list of existing directories.
* The cloned vault repository inside the temp directory is a directory tree
  `FTree`, because `vault.ts` walks it with recursive `readdirSync` loops
  (`removeExcludedFromVault`, `copyFromVault`, `listVaultFiles`); the tree
  functions below mirror those walks one for one.
* External collaborators (git network operations, `JSON.parse`, the `gh` CLI)
  are parameters: a clone materializes an arbitrary tree, `JSON.parse` is an
  arbitrary `String → Except String RawConfig` function, `gh` availability and
  the success of `createGitHubRepoAndPush` are booleans.
-/

namespace AgVault

/-! ## Paths -/

abbrev Path := List String

/-- `underDir base p` holds when `p` is `base` itself or lies inside the
directory `base` (i.e. `base` is an initial segment of `p`). -/
def underDir : Path → Path → Bool
  | [], _ => true
  | _ :: _, [] => false
  | b :: bs, p :: ps => decide (b = p) && underDir bs ps

/-- Two paths diverge: neither is an initial segment of the other. -/
def diverges : Path → Path → Bool
  | a :: as, b :: bs => if a = b then diverges as bs else true
  | _, _ => false

/-- Join path segments with `/`, as the source's string-level relative paths do. -/
def joinPath : Path → String
  | [] => ""
  | [s] => s
  | s :: rest => s ++ "/" ++ joinPath rest

/-! ## Character-list string helpers

The JavaScript string operations used by the source (`toLowerCase`,
`includes`, `split`, `trim`, `endsWith`, lexicographic `sort`) are modelled on
`List Char` so that they evaluate by kernel reduction. -/

def listStartsWith : List Char → List Char → Bool
  | _, [] => true
  | [], _ :: _ => false
  | a :: as, b :: bs => decide (a = b) && listStartsWith as bs

/-- `String.prototype.includes`: `sub` occurs contiguously in `hay`. -/
def listHasSub : List Char → List Char → Bool
  | [], sub => sub.isEmpty
  | hay@(_ :: rest), sub => listStartsWith hay sub || listHasSub rest sub

def strIncludes (hay sub : String) : Bool := listHasSub hay.toList sub.toList

def lowerStr (s : String) : String := String.mk (s.toList.map Char.toLower)

/-- Lexicographic comparison of strings by character code, the order of the
default JavaScript `Array.prototype.sort` on strings. -/
def lexLe : List Char → List Char → Bool
  | [], _ => true
  | _ :: _, [] => false
  | a :: as, b :: bs =>
    if a.toNat < b.toNat then true
    else if b.toNat < a.toNat then false
    else lexLe as bs

def strLe (a b : String) : Bool := lexLe a.toList b.toList

/-- Insertion sort by `strLe`, the model of `Array.prototype.sort()`. -/
def insertLe (x : String) : List String → List String
  | [] => [x]
  | y :: ys => if strLe x y then x :: y :: ys else y :: insertLe x ys

def sortStrs : List String → List String
  | [] => []
  | x :: xs => insertLe x (sortStrs xs)

/-- `String.prototype.split("/")`. -/
def splitSlashAux : List Char → List Char → List String
  | [], acc => [String.mk acc.reverse]
  | c :: rest, acc =>
    if c = '/' then String.mk acc.reverse :: splitSlashAux rest []
    else splitSlashAux rest (c :: acc)

def splitSlash (s : String) : List String := splitSlashAux s.toList []

def strEndsWith (s suf : String) : Bool := suf.toList.isSuffixOf s.toList

/-- `String.prototype.trim` (whitespace at both ends removed). -/
def trimStr (s : String) : String :=
  String.mk (((s.toList.dropWhile Char.isWhitespace).reverse.dropWhile Char.isWhitespace).reverse)

/-! ## Flat filesystem -/

/-- Flat filesystem state: contents of regular files, plus the set of
directories that exist.  `mkdtempSync` / `mkdirSync` add directories,
`rmSync { recursive: true, force: true }` removes a whole subtree. -/
structure Fs where
  files : List (Path × String)
  dirs : List Path
deriving Repr, DecidableEq

def Fs.readFile (fs : Fs) (p : Path) : Option String :=
  (fs.files.find? (fun e => decide (e.1 = p))).map (fun e => e.2)

def Fs.writeFile (fs : Fs) (p : Path) (c : String) : Fs :=
  { fs with files := (p, c) :: fs.files.filter (fun e => !decide (e.1 = p)) }

/-- `mkdirSync(p, { recursive: true })`: create `p` and all its ancestors. -/
def Fs.mkdirp (fs : Fs) (p : Path) : Fs :=
  { fs with dirs := p.inits ++ fs.dirs }

/-- `rmSync(p, { recursive: true, force: true })`: delete `p` and everything
under it, never raising an error. -/
def Fs.rmrf (fs : Fs) (p : Path) : Fs :=
  { files := fs.files.filter (fun e => !underDir p e.1),
    dirs := fs.dirs.filter (fun d => !underDir p d) }

/-- `existsSync`. -/
def Fs.existsP (fs : Fs) (p : Path) : Bool :=
  fs.dirs.any (fun d => decide (d = p)) || fs.files.any (fun e => decide (e.1 = p))

/-! ## Configuration (`src/config.ts`) -/

/-- `DEFAULT_INCLUDE` from `config.ts`. -/
def DEFAULT_INCLUDE : List String :=
  ["**/*.md", "**/*.mdc", ".cursor/**", ".cursorrules", "docs/**", "*.md"]

/-- `DEFAULT_EXCLUDE` from `config.ts`. -/
def DEFAULT_EXCLUDE : List String :=
  ["node_modules/**", ".git/**", "dist/**", "build/**", ".agvault/**"]

/-- `AgVaultConfig` (the `include` field is `include'` because `include` is a
Lean keyword). -/
structure AgVaultConfig where
  repoUrl : String
  include' : List String
  exclude : List String
  branch : String
deriving Repr, DecidableEq

/-- The fields of `Partial<AgVaultConfig>` as produced by `JSON.parse`. -/
structure RawConfig where
  repoUrl : Option String
  include' : Option (List String)
  exclude : Option (List String)
  branch : Option String
deriving Repr, DecidableEq

/-- `loadConfig`.  File-system access and `JSON.parse` are abstracted:
`fileContent` is `none` when `.agvault/config.json` does not exist
(`existsSync` false), otherwise the raw text; `parseJson` is `JSON.parse`
returning either the parsed partial config or the message of the exception it
throws.  A thrown error is an `Except.error`; the source's `null` return is
`Except.ok none`. -/
def loadConfig (fileContent : Option String)
    (parseJson : String → Except String RawConfig) : Except String (Option AgVaultConfig) :=
  match fileContent with
  | none => .ok none
  | some raw =>
    match parseJson raw with
    | .ok parsed =>
      .ok (some { repoUrl := parsed.repoUrl.getD ""
                  include' := parsed.include'.getD DEFAULT_INCLUDE
                  exclude := parsed.exclude.getD DEFAULT_EXCLUDE
                  branch := parsed.branch.getD "main" })
    | .error msg => .error ("Invalid JSON in .agvault/config.json: " ++ msg)

/-! ## Glob matching

`collectFiles` calls the `glob` library with `{ cwd, nodir: true, ignore:
config.exclude, dot: true }`.  The matcher below models the pattern language
actually used by the configuration defaults: literal characters, `*` within a
segment, and the `**` segment matching any number of path segments.  With
`dot: true`, `*` matches leading dots, so no dot special-casing applies. -/

/-- Match one glob segment (characters and `*`) against one path segment.
`*` matches any (possibly empty) run of characters, expressed by trying every
suffix of the remaining name. -/
def segMatch : List Char → List Char → Bool
  | [], name => name.isEmpty
  | '*' :: ps, name => name.tails.any (fun suf => segMatch ps suf)
  | p :: ps, name =>
    match name with
    | [] => false
    | n :: ns => decide (p = n) && segMatch ps ns

/-- Match a segment-split glob pattern against a path; the `**` segment
matches any (possibly empty) run of path segments. -/
def globSegs : List String → Path → Bool
  | [], segs => segs.isEmpty
  | p :: ps, segs =>
    if p = "**" then segs.tails.any (fun suf => globSegs ps suf)
    else
      match segs with
      | [] => false
      | s :: ss => segMatch p.toList s.toList && globSegs ps ss

def globMatch (pattern : String) (p : Path) : Bool := globSegs (splitSlash pattern) p

/-! ## Directory trees

The temp-directory clone that `vault.ts` walks with recursive `readdirSync`
loops is a directory tree.  Each directory is a list of named entries in
`readdirSync` order. -/

inductive FTree where
  | file (content : String)
  | dir (entries : List (String × FTree))
deriving Repr

mutual
/-- Structural equality of trees (`DecidableEq` cannot be derived for this
nested inductive). -/
def FTree.beq : FTree → FTree → Bool
  | .file a, .file b => decide (a = b)
  | .dir as, .dir bs => beqEntries as bs
  | _, _ => false
def beqEntries : List (String × FTree) → List (String × FTree) → Bool
  | [], [] => true
  | (m, s) :: ms, (n, t) :: ns => decide (m = n) && FTree.beq s t && beqEntries ms ns
  | _, _ => false
end

/-- First entry named `n` in a directory listing — how a real filesystem
resolves a name (names are unique in a real directory; `wfEntries` below
captures that). -/
def findEntry : List (String × FTree) → String → Option FTree
  | [], _ => none
  | (m, t) :: rest, n => if m = n then some t else findEntry rest n

/-- Replace the first entry named `n` (no change if absent). -/
def replaceFirst : List (String × FTree) → String → FTree → List (String × FTree)
  | [], _, _ => []
  | (m, t) :: rest, n, t' => if m = n then (m, t') :: rest else (m, t) :: replaceFirst rest n t'

/-- Remove the first entry named `n`. -/
def removeFirst : List (String × FTree) → String → List (String × FTree)
  | [], _ => []
  | (m, t) :: rest, n => if m = n then rest else (m, t) :: removeFirst rest n

/-- Resolve a path to the node it denotes, if any. -/
def FTree.readAt : FTree → Path → Option FTree
  | t, [] => some t
  | .file _, _ :: _ => none
  | .dir es, n :: q =>
    match findEntry es n with
    | some t => t.readAt q
    | none => none

/-- Content of the regular file at `p`, if there is one. -/
def FTree.readFileAt (t : FTree) (p : Path) : Option String :=
  match t.readAt p with
  | some (.file c) => some c
  | _ => none

/-- Write file content `c` at path `p`, creating intermediate directories
(`mkdirSync { recursive: true }`) and overwriting an existing destination
(`cpSync { force: true }` / `writeFileSync`).  When an intermediate component
is an existing regular file the source's `mkdirSync` would throw `ENOTDIR`;
this total model replaces it with a directory instead, and the theorems that
depend on intermediate components carry explicit hypotheses ruling the case
out. -/
def FTree.writeAt : FTree → Path → String → FTree
  | _, [], c => .file c
  | .file _, n :: q, c => .dir [(n, FTree.writeAt (.dir []) q c)]
  | .dir es, n :: q, c =>
    match findEntry es n with
    | some t => .dir (replaceFirst es n (t.writeAt q c))
    | none => .dir (es ++ [(n, FTree.writeAt (.dir []) q c)])

/-- Replace (`some`) or delete (`none`) the node at a nonempty path that
resolves to an existing entry; used to state the net effect of
`removeExcludedFromVault` on the enclosing tree. -/
def FTree.setAtO : FTree → Path → Option FTree → FTree
  | t, [], _ => t
  | .file c, _ :: _, _ => .file c
  | .dir es, [n], o =>
    match o with
    | some t' => .dir (replaceFirst es n t')
    | none => .dir (removeFirst es n)
  | .dir es, n :: q :: qs, o =>
    match findEntry es n with
    | some t => .dir (replaceFirst es n (t.setAtO (q :: qs) o))
    | none => .dir es

mutual
/-- All regular files in a tree with their relative paths, in walk order
(the recursive `readdirSync` loops of `vault.ts` visit entries in listing
order, descending into a subdirectory at its position). -/
def walkTree : FTree → List (Path × String)
  | .file c => [([], c)]
  | .dir es => walkEntries es
def walkEntries : List (String × FTree) → List (Path × String)
  | [] => []
  | (n, t) :: es => (walkTree t).map (fun pc => (n :: pc.1, pc.2)) ++ walkEntries es
end

mutual
/-- Real-directory well-formedness: entry names are unique at every level. -/
def wfTree : FTree → Bool
  | .file _ => true
  | .dir es => wfEntries es
def wfEntries : List (String × FTree) → Bool
  | [] => true
  | (n, t) :: es => (findEntry es n).isNone && wfTree t && wfEntries es
end

mutual
/-- No directory node anywhere in the tree is empty. -/
def noEmptyTree : FTree → Bool
  | .file _ => true
  | .dir es => !es.isEmpty && noEmptyEntries es
def noEmptyEntries : List (String × FTree) → Bool
  | [] => true
  | (_, t) :: es => noEmptyTree t && noEmptyEntries es
end

/-! ## Vault operations (`src/vault.ts`) -/

/-- `VaultFile`: absolute path plus project-root-relative path (the source
keeps the relative path as a forward-slash string; here it is in segments). -/
structure VaultFile where
  path : Path
  relativePath : Path
deriving Repr, DecidableEq

/-- `path.basename`: last segment (empty for the root path). -/
def basename (p : Path) : String := p.getLast?.getD ""

/-- `getWorkspaceName`: `basename(cwd) || "default"`. -/
def getWorkspaceName (cwd : Path) : String :=
  if basename cwd = "" then "default" else basename cwd

/-- One entry of the project directory listing seen by `glob`. -/
structure DirEnt where
  /-- Path relative to the project root. -/
  path : Path
  /-- The entry is a directory (`glob`'s `nodir: true` drops these). -/
  isDir : Bool
  /-- Result of `statSync(abs).isFile()`; `none` when `statSync` throws. -/
  statRes : Option Bool
deriving Repr, DecidableEq

/-- The result list of one `glob(pattern, { cwd, nodir: true, ignore, dot:
true })` call over the project listing: non-directories matching the pattern
and no ignore pattern, in listing order. -/
def globListing (entries : List DirEnt) (pattern : String) (ignore : List String) : List DirEnt :=
  entries.filter (fun e =>
    !e.isDir && globMatch pattern e.path && !(ignore.any (fun ig => globMatch ig e.path)))

/-- The inner loop of `collectFiles` for one pattern's glob results: `seen`
dedupes by absolute path (marking even entries whose stat fails), and only
entries whose stat reports a regular file are pushed; stat errors are
swallowed. -/
def collectStep (cwd : Path) : List DirEnt → List Path → List VaultFile → List Path × List VaultFile
  | [], seen, acc => (seen, acc)
  | e :: rest, seen, acc =>
    let abs := cwd ++ e.path
    if abs ∈ seen then collectStep cwd rest seen acc
    else if e.statRes = some true then collectStep cwd rest (abs :: seen) (acc ++ [⟨abs, e.path⟩])
    else collectStep cwd rest (abs :: seen) acc

/-- `collectFiles` (the caller has already loaded a non-`null` config; with a
`null` config the source returns `[]` before reaching this loop). -/
def collectFiles (cwd : Path) (entries : List DirEnt) (cfg : AgVaultConfig) : List VaultFile :=
  (cfg.include'.foldl
    (fun st pat => collectStep cwd (globListing entries pat cfg.exclude) st.1 st.2)
    ([], [])).2

/-- An entry appears in the glob listing of some pattern in `pats` (with
ignore list `ex`). -/
def listedBy (ex : List String) (pats : List String) (e : DirEnt) : Prop :=
  e.isDir = false ∧ (∀ ig ∈ ex, globMatch ig e.path = false) ∧
    ∃ pat ∈ pats, globMatch pat e.path = true

/-- `copyToVault`: copy each collected file into
`<temp>/vault/<workspace>/<relativePath>`, creating directories and
overwriting.  The tree argument is the temp-directory clone; contents are read
from the project filesystem `fs` (`cpSync src dest`).  `cpSync` would throw if
the source file vanished between collection and copy; this model skips such a
file, and the theorems assume collected files are readable. -/
def copyToVault (files : List VaultFile) (t : FTree) (fs : Fs) (cwd : Path) : FTree :=
  let ws := getWorkspaceName cwd
  files.foldl
    (fun acc vf =>
      match fs.readFile vf.path with
      | some c => acc.writeAt (["vault", ws] ++ vf.relativePath) c
      | none => acc)
    t

mutual
/-- The file-deletion walk of `removeExcludedFromVault`: delete every file
whose workspace-relative path is not in `allowed` (the walk collects `toDelete`
and then removes each file; removal never touches directories). -/
def removeDisTree (allowed : List Path) : Path → FTree → FTree
  | _, .file c => .file c
  | pre, .dir ds => .dir (removeDisEntries allowed pre ds)
def removeDisEntries (allowed : List Path) : Path → List (String × FTree) → List (String × FTree)
  | _, [] => []
  | pre, (n, t) :: es =>
    match t with
    | .file c =>
      if (pre ++ [n]) ∈ allowed then (n, .file c) :: removeDisEntries allowed pre es
      else removeDisEntries allowed pre es
    | .dir _ => (n, removeDisTree allowed (pre ++ [n]) t) :: removeDisEntries allowed pre es
end

mutual
/-- `removeEmptyDirs`: recurse into subdirectories first, then remove the
directory itself when its listing has become empty (`none`). -/
def pruneTree : FTree → Option FTree
  | .file c => some (.file c)
  | .dir ds =>
    match pruneEntries ds with
    | [] => none
    | e :: es' => some (.dir (e :: es'))
def pruneEntries : List (String × FTree) → List (String × FTree)
  | [] => []
  | (n, t) :: es =>
    match pruneTree t with
    | some t' => (n, t') :: pruneEntries es
    | none => pruneEntries es
end

/-- `removeExcludedFromVault`: if the workspace partition exists, delete the
files not in `allowed`, then remove directories left empty (the partition root
itself included).  When the partition path names a regular file, `existsSync`
succeeds but the walk's `readdirSync` would throw `ENOTDIR`; the model leaves
the tree unchanged there and the theorems exclude that degenerate case. -/
def removeExcludedFromVault (t : FTree) (cwd : Path) (allowed : List Path) : FTree :=
  let ws := getWorkspaceName cwd
  match t.readAt ["vault", ws] with
  | some (.dir es) => t.setAtO ["vault", ws] (pruneTree (.dir (removeDisEntries allowed [] es)))
  | some (.file _) => t
  | none => t

/-- The specific-paths filter of `copyFromVault`:
`vaultRel === p || rel === p || rel.endsWith("/" + p) || p === e.name`.
An `undefined` or empty list means no filtering. -/
def spMatches (sp : Option (List String)) (ws : String) (rel : Path) : Bool :=
  match sp with
  | none => true
  | some ps =>
    ps.isEmpty ||
      ps.any (fun p =>
        let relS := joinPath rel
        decide (ws ++ "/" ++ relS = p) || decide (relS = p) ||
          strEndsWith relS ("/" ++ p) || decide (p = rel.getLast?.getD ""))

mutual
/-- The walk of `copyFromVault`: the relative path and content of every file
written into the project root, in walk order. -/
def copyWalkTree (sp : Option (List String)) (ws : String) : Path → FTree → List (Path × String)
  | rel, .file c => if spMatches sp ws rel then [(rel, c)] else []
  | pre, .dir ds => copyWalkEntries sp ws pre ds
def copyWalkEntries (sp : Option (List String)) (ws : String) : Path → List (String × FTree) → List (Path × String)
  | _, [] => []
  | pre, (n, t) :: es => copyWalkTree sp ws (pre ++ [n]) t ++ copyWalkEntries sp ws pre es
end

/-- Write the walked files into the project root (`mkdirSync` the parent when
missing, then `writeFileSync`). -/
def applyWrites (fs : Fs) (cwd : Path) (writes : List (Path × String)) : Fs :=
  writes.foldl (fun acc rc => ((acc.mkdirp (cwd ++ rc.1).dropLast).writeFile (cwd ++ rc.1) rc.2)) fs

/-- `copyFromVault`: returns the number of files written and the updated
project filesystem.  Returns `0` untouched when the workspace partition does
not exist. -/
def copyFromVault (t : FTree) (fs : Fs) (cwd : Path) (sp : Option (List String)) : Nat × Fs :=
  let ws := getWorkspaceName cwd
  match t.readAt ["vault", ws] with
  | some (.dir es) =>
    let writes := copyWalkEntries sp ws [] es
    (writes.length, applyWrites fs cwd writes)
  | some (.file _) => (0, fs)
  | none => (0, fs)

/-- `pullFromVault` in terms of the clone it operates on: clone the remote to
a temp directory, `copyFromVault`, delete the temp directory (the tree never
outlives the call, so the result is just `copyFromVault` on the cloned tree). -/
def pullFromVault (remote : FTree) (fs : Fs) (cwd : Path) (sp : Option (List String)) : Nat × Fs :=
  copyFromVault remote fs cwd sp

/-- `listVaultFiles`: all file paths under the vault content root (all
workspaces), sorted (`out.sort()`). -/
def listVaultFiles (t : FTree) : List String :=
  match t.readAt ["vault"] with
  | some (.dir es) => sortStrs ((walkEntries es).map (fun pc => joinPath pc.1))
  | _ => []

/-- Modelled from the spec: the per-project listing variant (the CLI's
`listVaultFilesForProjectRemote`, whose implementation is not among the
sources) — "enumerate all file paths under the vault workspace partition ...
sorted lexicographically". -/
def listVaultFilesForProject (t : FTree) (cwd : Path) : List String :=
  match t.readAt ["vault", getWorkspaceName cwd] with
  | some (.dir es) => sortStrs ((walkEntries es).map (fun pc => joinPath pc.1))
  | _ => []

/-! ## Ephemeral vault session (`withTempVault`) -/

/-- `createTempVaultRepo`'s filesystem effect: create `<temp>/vault` with an
empty `.gitkeep` (the git calls — init, add, commit, addRemote, branch — only
touch repository metadata, not the files modelled here). -/
def createTempVaultRepo (fs : Fs) (tempDir : Path) : Fs :=
  (fs.mkdirp (tempDir ++ ["vault"])).writeFile (tempDir ++ ["vault", ".gitkeep"]) ""

/-- `withTempVault` on the flat filesystem.  `config` is the `loadConfig`
result (the `!config?.repoUrl` guard throws before any temp directory is
created); `clone` is the filesystem effect of a successful `git clone` into
the temp directory, `none` when the clone threw and the bootstrap fallback
runs; `fn` is the operation, whose thrown error is an `Except.error`.  The
`finally` block always runs `rmSync(tempDir, { recursive: true, force: true })`
before the result or error propagates. -/
def cloneEffect (fs : Fs) (tempDir : Path) (clone : Option (Fs → Fs)) : Fs :=
  match clone with
  | some g => g fs
  | none => createTempVaultRepo fs tempDir

def withTempVault {T : Type} (fs : Fs) (config : Option AgVaultConfig) (tempDir : Path)
    (clone : Option (Fs → Fs)) (fn : Fs → Except String T × Fs) : Except String T × Fs :=
  match config with
  | none => (.error "Not initialized. Run 'agvault init' first.", fs)
  | some cfg =>
    if cfg.repoUrl = "" then (.error "Not initialized. Run 'agvault init' first.", fs)
    else
      let fs2 := cloneEffect (fs.mkdirp tempDir) tempDir clone
      let r := fn fs2
      (r.1, r.2.rmrf tempDir)

/-! ## Store (`storeToVault`) -/

/-- One `storeToVault` run on the content level, for a run whose push (if any)
succeeds.  The clone materializes `remote`; `git.status` reports
modified/not-added/deleted entries exactly when the working tree differs from
the cloned head, i.e. when the copy-in phase changed the tree; with changes the
run commits once and pushes, making the new tree the remote head. -/
structure StoreRun where
  count : Nat
  hasChanges : Bool
  commits : Nat
  remote : FTree

/-- The copy-in phase of `storeToVault`/`syncVault`: `copyToVault`, then
`removeExcludedFromVault` with the collected relative paths as the allowed
set. -/
def storePhase (files : List VaultFile) (fs : Fs) (cwd : Path) (t : FTree) : FTree :=
  removeExcludedFromVault (copyToVault files t fs cwd) cwd (files.map (fun f => f.relativePath))

def storeToVaultModel (files : List VaultFile) (fs : Fs) (cwd : Path) (remote : FTree) : StoreRun :=
  let t2 := storePhase files fs cwd remote
  if FTree.beq t2 remote then ⟨files.length, false, 0, remote⟩
  else ⟨files.length, true, 1, t2⟩

/-! ## Remote-error classification and bootstrap (`isRepoNotFoundError`,
`src/gh.ts`) -/

/-- `isRepoNotFoundError`. -/
def isRepoNotFoundError (msg : String) : Bool :=
  let lower := lowerStr msg
  strIncludes lower "repository not found" ||
    strIncludes lower "could not read from remote" ||
    strIncludes lower "does not appear to be a git repository" ||
    strIncludes lower "remote repository is empty" ||
    strIncludes lower "failed to connect"

/-- JavaScript `\w`. -/
def isWordChar (c : Char) : Bool := c.isAlphanum || c = '_'

/-- The owner charset `[\w.-]`. -/
def isOwnerChar (c : Char) : Bool := isWordChar c || c = '.' || c = '-'

/-- The repo-name charset `[^\s/#]`. -/
def isRepoChar (c : Char) : Bool := !(c = '/' || c = '#' || c.isWhitespace)

/-- Strip `pat` from the front of `s`, case-insensitively (the regex's `i`
flag); returns the rest. -/
def ciStrip : List Char → List Char → Option (List Char)
  | s, [] => some s
  | [], _ :: _ => none
  | c :: cs, p :: ps => if c.toLower = p.toLower then ciStrip cs ps else none

/-- Strip `suf` from the end of `s`, case-insensitively. -/
def stripSufCI (s : List Char) (suf : String) : Option (List Char) :=
  let sl := suf.toList
  if sl.length ≤ s.length ∧ (s.drop (s.length - sl.length)).map Char.toLower = sl.map Char.toLower
  then some (s.take (s.length - sl.length))
  else none

def repoNameOk (r : List Char) : Bool := !r.isEmpty && r.all isRepoChar

/-- The lazy group `([^\s/#]+?)(?:\.git)?\/?$` of `parseGitHubRepoUrl`: the
shortest repo name such that the rest of the string is an optional `.git`
followed by an optional `/`; candidates in order of increasing name length. -/
def lazyRepo (t : List Char) : Option (List Char) :=
  [".git/", ".git", "/", ""].foldl
    (fun acc suf =>
      match acc with
      | some r => some r
      | none =>
        match stripSufCI t suf with
        | some r => if repoNameOk r then some r else none
        | none => none)
    none

/-- Match `[/:](\w[\w.-]*)\/(repo…)$` right after an occurrence of
`github.com`, returning `owner/name` with a final case-sensitive `.git`
stripped from the name (the source's `.replace(/\.git$/, "")`). -/
def parseOwnerRepo (rest : List Char) : Option String :=
  match rest with
  | [] => none
  | sep :: rest2 =>
    if sep = '/' || sep = ':' then
      match rest2 with
      | [] => none
      | c :: _ =>
        if isWordChar c then
          let sp := rest2.span isOwnerChar
          match sp.2 with
          | '/' :: tl =>
            match lazyRepo tl with
            | some r =>
              let rs := String.mk r
              let rs2 :=
                if strEndsWith rs ".git" then String.mk (r.take (r.length - 4)) else rs
              some (String.mk sp.1 ++ "/" ++ rs2)
            | _ => none
          | _ => none
        else none
    else none

/-- `parseGitHubRepoUrl`: leftmost occurrence of `github.com` (the regex is
unanchored at the front) after which owner and repo parse; the separate SSH
regex of the source accepts a subset of the first one (`[/:]` already covers
`:`), so a single search models both. -/
def parseGitHubRepoUrl (repoUrl : String) : Option String :=
  searchGithub (trimStr repoUrl).toList
where
  searchGithub : List Char → Option String
    | [] => none
    | s@(_ :: rest) =>
      match ciStrip s "github.com".toList with
      | some after =>
        match parseOwnerRepo after with
        | some r => some r
        | none => searchGithub rest
      | none => searchGithub rest

inductive PushOutcome where
  | ok
  | fail (msg : String)
deriving Repr, DecidableEq

/-- The push/recovery phase of `storeToVault` (its `try { push } catch`
block): a non-"repo not found" failure is rethrown unchanged; otherwise, when
the GitHub CLI is available and `createGitHubRepoAndPush` succeeds the run
completes; otherwise the actionable error is thrown.  `ghAvailable` and
`createOk` model `isGhAvailable()` and `createGitHubRepoAndPush(...)`. -/
def storePushPhase (repoUrl : String) (ghAvailable createOk : Bool)
    (push : PushOutcome) (fileCount : Nat) : Except String Nat :=
  match push with
  | .ok => .ok fileCount
  | .fail msg =>
    if !isRepoNotFoundError msg then .error msg
    else if ghAvailable && createOk then .ok fileCount
    else
      let repo := parseGitHubRepoUrl repoUrl
      let hint :=
        match repo with
        | some r =>
          "Create the repo at https://github.com/new?name=" ++ (splitSlash r).getD 1 "" ++
            " (private), then run agvault store again."
        | none =>
          "Create a private repo at https://github.com/new and use its URL in agvault init, then run agvault store again."
      .error ("Remote repository not found. " ++
        (if ghAvailable then "Run `gh auth login` and try again, or "
         else "Install GitHub CLI (gh) and run `gh auth login` to create the repo automatically, or ") ++
        hint)

/-! # Lemmas and claim theorems -/

/-! ## Ephemeral cleanup (claim C1) -/

theorem rmrf_not_exists (fs : Fs) (p q : Path) (h : underDir p q = true) :
    (fs.rmrf p).existsP q = false := by
  simp only [Fs.rmrf, Fs.existsP, Bool.or_eq_false_iff, List.any_eq_false, List.mem_filter,
    Bool.not_eq_eq_eq_not, Bool.not_true, and_imp, decide_eq_true_eq]
  constructor
  · rintro d _ hd rfl
    simp [h] at hd
  · rintro e _ he h2
    rw [h2] at he
    simp [h] at he

/-- C1: for a loadable config with non-empty `repoUrl` and any operation,
`withTempVault` (a) propagates the operation's result or error unchanged after
cleanup, and (b) leaves nothing at or under the temp directory it created on
the filesystem, whether the operation succeeded or failed. -/
theorem withTempVault_cleanup {T : Type} (fs : Fs) (cfg : AgVaultConfig) (tempDir : Path)
    (clone : Option (Fs → Fs)) (fn : Fs → Except String T × Fs)
    (hrepo : cfg.repoUrl ≠ "") :
    (withTempVault fs (some cfg) tempDir clone fn).1 =
      (fn (cloneEffect (fs.mkdirp tempDir) tempDir clone)).1 ∧
    ∀ q, underDir tempDir q = true →
      ((withTempVault fs (some cfg) tempDir clone fn).2).existsP q = false := by
  constructor
  · simp [withTempVault, hrepo]
  · intro q hq
    simp only [withTempVault, hrepo, if_false]
    exact rmrf_not_exists _ _ _ hq

theorem withTempVault_cleanup_witness :
    (withTempVault (T := Nat) ⟨[(["home", "x.md"], "x")], [["home"]]⟩
        (some ⟨"https://github.com/a/b", [], [], "main"⟩) ["tmp", "agvault-1"] none
        (fun s => (.error "push failed", s.writeFile ["tmp", "agvault-1", "z"] "z"))).1 =
      .error "push failed" ∧
    ((withTempVault (T := Nat) ⟨[(["home", "x.md"], "x")], [["home"]]⟩
        (some ⟨"https://github.com/a/b", [], [], "main"⟩) ["tmp", "agvault-1"] none
        (fun s => (.error "push failed", s.writeFile ["tmp", "agvault-1", "z"] "z"))).2).existsP
      ["tmp", "agvault-1"] = false := by
  have h := withTempVault_cleanup (T := Nat) ⟨[(["home", "x.md"], "x")], [["home"]]⟩
    ⟨"https://github.com/a/b", [], [], "main"⟩ ["tmp", "agvault-1"] none
    (fun s => (.error "push failed", s.writeFile ["tmp", "agvault-1", "z"] "z"))
    (by decide)
  exact ⟨h.1, h.2 ["tmp", "agvault-1"] (by decide)⟩

/-! ## Config loading (claim C7) -/

/-- C7: `loadConfig` yields `null` exactly when the file is missing, and a
file that exists but fails to parse raises the distinct invalid-config error
instead of being treated as "not initialized". -/
theorem loadConfig_null_iff (fc : Option String) (parseJson : String → Except String RawConfig) :
    (loadConfig fc parseJson = .ok none ↔ fc = none) ∧
    (∀ raw e, fc = some raw → parseJson raw = .error e →
      loadConfig fc parseJson = .error ("Invalid JSON in .agvault/config.json: " ++ e)) := by
  constructor
  · cases fc with
    | none => simp [loadConfig]
    | some raw =>
      simp only [loadConfig]
      cases parseJson raw <;> simp
  · rintro raw e rfl hp
    simp [loadConfig, hp]

theorem loadConfig_null_iff_witness :
    loadConfig (some "\x7b") (fun _ => .error "Unexpected end of JSON input")
      = .error ("Invalid JSON in .agvault/config.json: " ++ "Unexpected end of JSON input") :=
  (loadConfig_null_iff (some "\x7b") (fun _ => .error "Unexpected end of JSON input")).2
    "\x7b" "Unexpected end of JSON input" rfl rfl

/-! ## Push-failure classification (claim C6) -/

theorem listStartsWith_append (hay sub ext : List Char) (h : listStartsWith hay sub = true) :
    listStartsWith (hay ++ ext) sub = true := by
  induction sub generalizing hay with
  | nil => simp [listStartsWith]
  | cons b bs ih =>
    cases hay with
    | nil => simp [listStartsWith] at h
    | cons a as =>
      simp only [listStartsWith, Bool.and_eq_true, decide_eq_true_eq] at h
      simp only [List.cons_append, listStartsWith, Bool.and_eq_true, decide_eq_true_eq]
      exact ⟨h.1, ih as h.2⟩

theorem listHasSub_append_right (x y sub : List Char) (h : listHasSub y sub = true) :
    listHasSub (x ++ y) sub = true := by
  induction x with
  | nil => simpa using h
  | cons c xs ih =>
    simp only [List.cons_append, listHasSub, Bool.or_eq_true]
    exact Or.inr ih

theorem listHasSub_nil_sub (l : List Char) : listHasSub l [] = true := by
  cases l <;> simp [listHasSub, listStartsWith]

theorem listHasSub_append_left (x y sub : List Char) (h : listHasSub x sub = true) :
    listHasSub (x ++ y) sub = true := by
  induction x with
  | nil =>
    simp only [listHasSub, List.isEmpty_eq_true] at h
    subst h
    exact listHasSub_nil_sub _
  | cons c xs ih =>
    simp only [listHasSub, Bool.or_eq_true] at h
    simp only [List.cons_append, listHasSub, Bool.or_eq_true]
    cases h with
    | inl h => exact Or.inl (listStartsWith_append _ _ _ h)
    | inr h => exact Or.inr (ih h)

theorem toList_append (x y : String) : (x ++ y).toList = x.toList ++ y.toList := by
  cases x; cases y; rfl

theorem strIncludes_append_right (x y sub : String) (h : strIncludes y sub = true) :
    strIncludes (x ++ y) sub = true := by
  unfold strIncludes at *
  rw [toList_append]
  exact listHasSub_append_right _ _ _ h

theorem strIncludes_append_left (x y sub : String) (h : strIncludes x sub = true) :
    strIncludes (x ++ y) sub = true := by
  unfold strIncludes at *
  rw [toList_append]
  exact listHasSub_append_left _ _ _ h

/-- C6 (amended): a push failure not matching the fixed remote-not-found
substrings is rethrown unchanged; a matching failure triggers the automatic
remote-creation path (succeeding when the hosting CLI is available and
creation succeeds); and when that path is unavailable or fails, the store
fails with an error naming the GitHub creation URL (`https://github.com/new`,
with the parsed repository name when the target URL parses as GitHub) — not
the literal target URL itself. -/
theorem storePushPhase_classification (url msg : String) (gh create : Bool) (n : Nat) :
    (isRepoNotFoundError msg = false → storePushPhase url gh create (.fail msg) n = .error msg) ∧
    (isRepoNotFoundError msg = true → (gh && create) = true →
      storePushPhase url gh create (.fail msg) n = .ok n) ∧
    (isRepoNotFoundError msg = true → (gh && create) = false →
      ∃ e, storePushPhase url gh create (.fail msg) n = .error e ∧
        strIncludes e "https://github.com/new" = true) := by
  refine ⟨?_, ?_, ?_⟩
  · intro h
    simp [storePushPhase, h]
  · intro h1 h2
    simp [storePushPhase, h1, h2]
  · intro h1 h2
    cases hp : parseGitHubRepoUrl url with
    | some r =>
      refine ⟨"Remote repository not found. " ++
          (if gh then "Run `gh auth login` and try again, or "
           else "Install GitHub CLI (gh) and run `gh auth login` to create the repo automatically, or ") ++
          ("Create the repo at https://github.com/new?name=" ++ (splitSlash r).getD 1 "" ++
            " (private), then run agvault store again."), ?_, ?_⟩
      · simp [storePushPhase, h1, h2, hp]
      · apply strIncludes_append_right
        apply strIncludes_append_left
        apply strIncludes_append_left
        decide
    | none =>
      refine ⟨"Remote repository not found. " ++
          (if gh then "Run `gh auth login` and try again, or "
           else "Install GitHub CLI (gh) and run `gh auth login` to create the repo automatically, or ") ++
          "Create a private repo at https://github.com/new and use its URL in agvault init, then run agvault store again.", ?_, ?_⟩
      · simp [storePushPhase, h1, h2, hp]
      · apply strIncludes_append_right
        decide

theorem storePushPhase_classification_witness :
    storePushPhase "https://github.com/a/b" true true (.fail "permission denied") 2
      = .error "permission denied" :=
  (storePushPhase_classification "https://github.com/a/b" "permission denied" true true 2).1
    (by decide)

/-- C6 counterexample: with the remote URL `https://github.com/alice/notes.git`
and the hosting CLI unavailable, a matching push failure produces an error
that does not contain the literal target URL (it contains the creation link
`https://github.com/new?name=notes` instead). -/
theorem storePushPhase_error_lacks_target_url :
    storePushPhase "https://github.com/alice/notes.git" false false
        (.fail "remote: Repository not found.") 3
      = .error "Remote repository not found. Install GitHub CLI (gh) and run `gh auth login` to create the repo automatically, or Create the repo at https://github.com/new?name=notes (private), then run agvault store again." ∧
    strIncludes "Remote repository not found. Install GitHub CLI (gh) and run `gh auth login` to create the repo automatically, or Create the repo at https://github.com/new?name=notes (private), then run agvault store again."
        "https://github.com/alice/notes.git" = false ∧
    isRepoNotFoundError "remote: Repository not found." = true :=
  ⟨rfl, by decide, by decide⟩

/-! ## Pull with no workspace partition (claim C10) -/

/-- C10: when the cloned vault has no workspace partition for the project,
`copyFromVault` — and hence `pullFromVault` — returns `0` and leaves the
project filesystem untouched, for every specific-paths filter. -/
theorem copyFromVault_no_partition (t : FTree) (fs : Fs) (cwd : Path)
    (h : t.readAt ["vault", getWorkspaceName cwd] = none) :
    ∀ sp, copyFromVault t fs cwd sp = (0, fs) ∧ pullFromVault t fs cwd sp = (0, fs) := by
  intro sp
  constructor
  · simp [copyFromVault, h]
  · simp [pullFromVault, copyFromVault, h]

/-! ## File collection (claim C8) -/

theorem mem_globListing (entries : List DirEnt) (pattern : String) (ignore : List String)
    (e : DirEnt) :
    e ∈ globListing entries pattern ignore ↔
      e ∈ entries ∧ e.isDir = false ∧ globMatch pattern e.path = true ∧
        ∀ ig ∈ ignore, globMatch ig e.path = false := by
  simp only [globListing, List.mem_filter, Bool.and_eq_true, Bool.not_eq_eq_eq_not,
    Bool.not_true, List.any_eq_false, and_assoc, Bool.not_eq_true]

/-- Characterization of the inner per-pattern loop of `collectFiles`:
membership in the updated `seen` set and output list, preservation of
`acc ⊆ seen`, and preservation of dedup. -/
theorem collectStep_spec (cwd : Path) :
    ∀ (l : List DirEnt) (seen : List Path) (acc : List VaultFile),
      (l.map (fun e => cwd ++ e.path)).Nodup →
      (∀ vf ∈ acc, vf.path ∈ seen) →
      (∀ p, p ∈ (collectStep cwd l seen acc).1 ↔ p ∈ seen ∨ ∃ e ∈ l, p = cwd ++ e.path) ∧
      (∀ vf, vf ∈ (collectStep cwd l seen acc).2 ↔
        vf ∈ acc ∨ ∃ e ∈ l, (cwd ++ e.path) ∉ seen ∧ e.statRes = some true ∧
          vf = ⟨cwd ++ e.path, e.path⟩) ∧
      (∀ vf ∈ (collectStep cwd l seen acc).2, vf.path ∈ (collectStep cwd l seen acc).1) ∧
      ((acc.map (fun v => v.path)).Nodup →
        ((collectStep cwd l seen acc).2.map (fun v => v.path)).Nodup) := by
  intro l
  induction l with
  | nil =>
    intro seen acc _ hsub
    refine ⟨by simp [collectStep], by simp [collectStep], ?_, by simp [collectStep]⟩
    simpa [collectStep] using hsub
  | cons e rest ih =>
    intro seen acc hnd hsub
    have hndr : (rest.map (fun e => cwd ++ e.path)).Nodup := (List.nodup_cons.mp hnd).2
    have habsnd : (cwd ++ e.path) ∉ rest.map (fun e => cwd ++ e.path) := (List.nodup_cons.mp hnd).1
    by_cases habs : (cwd ++ e.path) ∈ seen
    · have hstep : collectStep cwd (e :: rest) seen acc = collectStep cwd rest seen acc := by
        simp [collectStep, habs]
      obtain ⟨iha, ihb, ihc, ihd⟩ := ih seen acc hndr hsub
      rw [hstep]
      refine ⟨?_, ?_, ihc, ihd⟩
      · intro p
        rw [iha p]
        simp only [List.mem_cons]
        constructor
        · rintro (h | ⟨e', he', rfl⟩)
          · exact Or.inl h
          · exact Or.inr ⟨e', Or.inr he', rfl⟩
        · rintro (h | ⟨e', rfl | he'', rfl⟩)
          · exact Or.inl h
          · exact Or.inl habs
          · exact Or.inr ⟨e', he'', rfl⟩
      · intro vf
        rw [ihb vf]
        simp only [List.mem_cons]
        constructor
        · rintro (h | ⟨e', he', hns, hst, rfl⟩)
          · exact Or.inl h
          · exact Or.inr ⟨e', Or.inr he', hns, hst, rfl⟩
        · rintro (h | ⟨e', rfl | he'', hns, hst, rfl⟩)
          · exact Or.inl h
          · exact absurd habs hns
          · exact Or.inr ⟨e', he'', hns, hst, rfl⟩
    · by_cases hadd : e.statRes = some true
      · have hstep : collectStep cwd (e :: rest) seen acc
            = collectStep cwd rest ((cwd ++ e.path) :: seen)
                (acc ++ [⟨cwd ++ e.path, e.path⟩]) := by
          simp [collectStep, habs, hadd]
        have hsub' : ∀ vf ∈ acc ++ [(⟨cwd ++ e.path, e.path⟩ : VaultFile)],
            vf.path ∈ (cwd ++ e.path) :: seen := by
          intro vf hvf
          rcases List.mem_append.mp hvf with h | h
          · exact List.mem_cons_of_mem _ (hsub vf h)
          · rcases List.mem_singleton.mp h with rfl
            exact List.mem_cons_self ..
        obtain ⟨iha, ihb, ihc, ihd⟩ :=
          ih ((cwd ++ e.path) :: seen) (acc ++ [⟨cwd ++ e.path, e.path⟩]) hndr hsub'
        rw [hstep]
        refine ⟨?_, ?_, ihc, ?_⟩
        · intro p
          rw [iha p]
          simp only [List.mem_cons]
          constructor
          · rintro ((rfl | h) | ⟨e', he', rfl⟩)
            · exact Or.inr ⟨e, Or.inl rfl, rfl⟩
            · exact Or.inl h
            · exact Or.inr ⟨e', Or.inr he', rfl⟩
          · rintro (h | ⟨e', rfl | he'', rfl⟩)
            · exact Or.inl (Or.inr h)
            · exact Or.inl (Or.inl rfl)
            · exact Or.inr ⟨e', he'', rfl⟩
        · intro vf
          rw [ihb vf]
          simp only [List.mem_append, List.mem_singleton, List.mem_cons, List.not_mem_nil,
            or_false]
          constructor
          · rintro ((h | rfl) | ⟨e', he', hns, hst, rfl⟩)
            · exact Or.inl h
            · exact Or.inr ⟨e, Or.inl rfl, habs, hadd, rfl⟩
            · exact Or.inr ⟨e', Or.inr he', fun hc => hns (Or.inr hc), hst, rfl⟩
          · rintro (h | ⟨e', rfl | he'', hns, hst, rfl⟩)
            · exact Or.inl (Or.inl h)
            · exact Or.inl (Or.inr rfl)
            · refine Or.inr ⟨e', he'', ?_, hst, rfl⟩
              rintro (heq | hc')
              · exact habsnd (heq ▸ List.mem_map_of_mem (fun e => cwd ++ e.path) he'')
              · exact hns hc'
        · intro hacc
          apply ihd
          rw [List.map_append]
          apply List.Nodup.append hacc (by simp)
          intro p hp hp'
          simp only [List.map_cons, List.map_nil, List.mem_singleton] at hp'
          subst hp'
          rcases List.mem_map.mp hp with ⟨vf, hvf, hvfp⟩
          exact habs (hvfp ▸ hsub vf hvf)
      · have hstep : collectStep cwd (e :: rest) seen acc
            = collectStep cwd rest ((cwd ++ e.path) :: seen) acc := by
          simp [collectStep, habs, hadd]
        have hsub' : ∀ vf ∈ acc, vf.path ∈ (cwd ++ e.path) :: seen := by
          intro vf hvf
          exact List.mem_cons_of_mem _ (hsub vf hvf)
        obtain ⟨iha, ihb, ihc, ihd⟩ := ih ((cwd ++ e.path) :: seen) acc hndr hsub'
        rw [hstep]
        refine ⟨?_, ?_, ihc, ihd⟩
        · intro p
          rw [iha p]
          simp only [List.mem_cons]
          constructor
          · rintro ((rfl | h) | ⟨e', he', rfl⟩)
            · exact Or.inr ⟨e, Or.inl rfl, rfl⟩
            · exact Or.inl h
            · exact Or.inr ⟨e', Or.inr he', rfl⟩
          · rintro (h | ⟨e', rfl | he'', rfl⟩)
            · exact Or.inl (Or.inr h)
            · exact Or.inl (Or.inl rfl)
            · exact Or.inr ⟨e', he'', rfl⟩
        · intro vf
          rw [ihb vf]
          simp only [List.mem_cons]
          constructor
          · rintro (h | ⟨e', he', hns, hst, rfl⟩)
            · exact Or.inl h
            · exact Or.inr ⟨e', Or.inr he', fun hc => hns (Or.inr hc), hst, rfl⟩
          · rintro (h | ⟨e', rfl | he'', hns, hst, rfl⟩)
            · exact Or.inl h
            · exact absurd hst hadd
            · refine Or.inr ⟨e', he'', ?_, hst, rfl⟩
              rintro (heq | hc')
              · exact habsnd (heq ▸ List.mem_map_of_mem (fun e => cwd ++ e.path) he'')
              · exact hns hc'

theorem listedBy_append_singleton (ex done : List String) (pat : String) (e : DirEnt) :
    listedBy ex (done ++ [pat]) e ↔
      listedBy ex done e ∨
        (e.isDir = false ∧ (∀ ig ∈ ex, globMatch ig e.path = false) ∧
          globMatch pat e.path = true) := by
  simp only [listedBy, List.mem_append, List.mem_singleton]
  constructor
  · rintro ⟨h1, h2, p', (hp | rfl), hm⟩
    · exact Or.inl ⟨h1, h2, p', hp, hm⟩
    · exact Or.inr ⟨h1, h2, hm⟩
  · rintro (⟨h1, h2, p', hp, hm⟩ | ⟨h1, h2, hm⟩)
    · exact ⟨h1, h2, p', Or.inl hp, hm⟩
    · exact ⟨h1, h2, pat, Or.inr rfl, hm⟩

theorem globListing_nodup (cwd : Path) (entries : List DirEnt) (pat : String) (ex : List String)
    (hnd : (entries.map (fun e => e.path)).Nodup) :
    ((globListing entries pat ex).map (fun e => cwd ++ e.path)).Nodup := by
  have h1 : ((globListing entries pat ex).map (fun e => e.path)).Nodup :=
    hnd.sublist (List.Sublist.map _ (List.filter_sublist entries))
  have h2 : ((globListing entries pat ex).map (fun e => e.path)).map (fun q => cwd ++ q)
      = (globListing entries pat ex).map (fun e => cwd ++ e.path) := by
    rw [List.map_map]
    rfl
  rw [← h2]
  exact h1.map (fun a b h => List.append_cancel_left h)

/-- The outer fold of `collectFiles` over the include patterns: invariant
characterizing the accumulated output. -/
theorem collectFold_inv (cwd : Path) (entries : List DirEnt) (ex : List String)
    (hnd : (entries.map (fun e => e.path)).Nodup) :
    ∀ (todo done : List String) (seen : List Path) (acc : List VaultFile),
      (∀ p, p ∈ seen ↔ ∃ e ∈ entries, p = cwd ++ e.path ∧ listedBy ex done e) →
      (∀ vf, vf ∈ acc ↔ ∃ e ∈ entries, vf = ⟨cwd ++ e.path, e.path⟩ ∧
        e.statRes = some true ∧ listedBy ex done e) →
      (∀ vf ∈ acc, vf.path ∈ seen) →
      ((acc.map (fun v => v.path)).Nodup) →
      (∀ vf, vf ∈ (todo.foldl
          (fun st pat => collectStep cwd (globListing entries pat ex) st.1 st.2) (seen, acc)).2 ↔
        ∃ e ∈ entries, vf = ⟨cwd ++ e.path, e.path⟩ ∧ e.statRes = some true ∧
          listedBy ex (done ++ todo) e) ∧
      (((todo.foldl
          (fun st pat => collectStep cwd (globListing entries pat ex) st.1 st.2) (seen, acc)).2.map
            (fun v => v.path)).Nodup) := by
  intro todo
  induction todo with
  | nil =>
    intro done seen acc hseen hacc hsub haccnd
    simpa using ⟨hacc, haccnd⟩
  | cons pat todo' ih =>
    intro done seen acc hseen hacc hsub haccnd
    have hinj : ∀ e ∈ entries, ∀ e' ∈ entries, e.path = e'.path → e = e' := by
      intro a ha b hb hab
      exact List.inj_on_of_nodup_map hnd ha hb hab
    obtain ⟨csa, csb, csc, csd⟩ :=
      collectStep_spec cwd (globListing entries pat ex) seen acc
        (globListing_nodup cwd entries pat ex hnd) hsub
    have hseen' : ∀ p, p ∈ (collectStep cwd (globListing entries pat ex) seen acc).1 ↔
        ∃ e ∈ entries, p = cwd ++ e.path ∧ listedBy ex (done ++ [pat]) e := by
      intro p
      rw [csa p, hseen p]
      constructor
      · rintro (⟨e, he, rfl, hl⟩ | ⟨e, he, rfl⟩)
        · exact ⟨e, he, rfl, (listedBy_append_singleton ex done pat e).mpr (Or.inl hl)⟩
        · rcases (mem_globListing entries pat ex e).mp he with ⟨he', h1, h2, h3⟩
          exact ⟨e, he', rfl, (listedBy_append_singleton ex done pat e).mpr (Or.inr ⟨h1, h3, h2⟩)⟩
      · rintro ⟨e, he, rfl, hl⟩
        rcases (listedBy_append_singleton ex done pat e).mp hl with hl' | ⟨h1, h2, h3⟩
        · exact Or.inl ⟨e, he, rfl, hl'⟩
        · exact Or.inr ⟨e, (mem_globListing entries pat ex e).mpr ⟨he, h1, h3, h2⟩, rfl⟩
    have hacc' : ∀ vf, vf ∈ (collectStep cwd (globListing entries pat ex) seen acc).2 ↔
        ∃ e ∈ entries, vf = ⟨cwd ++ e.path, e.path⟩ ∧ e.statRes = some true ∧
          listedBy ex (done ++ [pat]) e := by
      intro vf
      rw [csb vf, hacc vf]
      constructor
      · rintro (⟨e, he, rfl, hst, hl⟩ | ⟨e, he, hns, hst, rfl⟩)
        · exact ⟨e, he, rfl, hst, (listedBy_append_singleton ex done pat e).mpr (Or.inl hl)⟩
        · rcases (mem_globListing entries pat ex e).mp he with ⟨he', h1, h2, h3⟩
          exact ⟨e, he', rfl, hst,
            (listedBy_append_singleton ex done pat e).mpr (Or.inr ⟨h1, h3, h2⟩)⟩
      · rintro ⟨e, he, rfl, hst, hl⟩
        rcases (listedBy_append_singleton ex done pat e).mp hl with hl' | ⟨h1, h2, h3⟩
        · exact Or.inl ⟨e, he, rfl, hst, hl'⟩
        · by_cases hld : listedBy ex done e
          · exact Or.inl ⟨e, he, rfl, hst, hld⟩
          · refine Or.inr ⟨e, (mem_globListing entries pat ex e).mpr ⟨he, h1, h3, h2⟩, ?_, hst, rfl⟩
            intro hc
            rcases (hseen (cwd ++ e.path)).mp hc with ⟨e', he', heq, hl'⟩
            have : e = e' := hinj e he e' he' (List.append_cancel_left heq)
            exact hld (this ▸ hl')
    have step :
        ((pat :: todo').foldl
          (fun st pat => collectStep cwd (globListing entries pat ex) st.1 st.2) (seen, acc))
        = (todo'.foldl (fun st pat => collectStep cwd (globListing entries pat ex) st.1 st.2)
            (collectStep cwd (globListing entries pat ex) seen acc)) := by
      simp [List.foldl_cons]
    rw [step]
    have hres := ih (done ++ [pat]) (collectStep cwd (globListing entries pat ex) seen acc).1
      (collectStep cwd (globListing entries pat ex) seen acc).2 hseen' hacc' csc (csd haccnd)
    rw [List.append_assoc] at hres
    simpa using hres

/-- C8: `collectFiles` returns exactly the regular files (directories,
non-files, and entries whose stat fails are skipped silently) matching at
least one include pattern and no exclude pattern, deduplicated by absolute
path; and on the spec's example it returns exactly `a.md` then `b/c.md` in
include-traversal order. -/
theorem collectFiles_spec (cwd : Path) (entries : List DirEnt) (cfg : AgVaultConfig)
    (hnd : (entries.map (fun e => e.path)).Nodup) :
    (∀ vf, vf ∈ collectFiles cwd entries cfg ↔
      ∃ e ∈ entries, vf = ⟨cwd ++ e.path, e.path⟩ ∧ e.isDir = false ∧ e.statRes = some true ∧
        (∃ pat ∈ cfg.include', globMatch pat e.path = true) ∧
        (∀ ig ∈ cfg.exclude, globMatch ig e.path = false)) ∧
    ((collectFiles cwd entries cfg).map (fun vf => vf.path)).Nodup ∧
    collectFiles ["p"]
        [⟨["a.md"], false, some true⟩, ⟨["b"], true, some false⟩,
          ⟨["b", "c.md"], false, some true⟩, ⟨["b", "c.txt"], false, some true⟩]
        ⟨"u", ["**/*.md"], [], "main"⟩
      = [⟨["p", "a.md"], ["a.md"]⟩, ⟨["p", "b", "c.md"], ["b", "c.md"]⟩] := by
  have hinv := collectFold_inv cwd entries cfg.exclude hnd cfg.include' [] [] []
    (by simp [listedBy]) (by simp [listedBy]) (by simp) (by simp)
  refine ⟨?_, ?_, by decide⟩
  · intro vf
    rw [show collectFiles cwd entries cfg
        = (cfg.include'.foldl
            (fun st pat => collectStep cwd (globListing entries pat cfg.exclude) st.1 st.2)
            ([], [])).2 from rfl]
    rw [hinv.1 vf]
    simp only [List.nil_append, listedBy]
    constructor
    · rintro ⟨e, he, rfl, hst, h1, h2, h3⟩
      exact ⟨e, he, rfl, h1, hst, h3, h2⟩
    · rintro ⟨e, he, rfl, h1, hst, h3, h2⟩
      exact ⟨e, he, rfl, hst, h1, h2, h3⟩
  · exact hinv.2

theorem collectFiles_spec_witness :
    (⟨["p", "a.md"], ["a.md"]⟩ : VaultFile) ∈
      collectFiles ["p"]
        [⟨["a.md"], false, some true⟩, ⟨["b"], true, some false⟩,
          ⟨["b", "c.md"], false, some true⟩, ⟨["b", "c.txt"], false, some true⟩]
        ⟨"u", ["**/*.md"], [], "main"⟩ :=
  ((collectFiles_spec ["p"]
      [⟨["a.md"], false, some true⟩, ⟨["b"], true, some false⟩,
        ⟨["b", "c.md"], false, some true⟩, ⟨["b", "c.txt"], false, some true⟩]
      ⟨"u", ["**/*.md"], [], "main"⟩ (by decide)).1 ⟨["p", "a.md"], ["a.md"]⟩).mpr
    ⟨⟨["a.md"], false, some true⟩, by decide, rfl, rfl, rfl, ⟨"**/*.md", by decide, by decide⟩,
      by decide⟩

/-! ## Listing (claim C9) -/

theorem lexLe_total (a : List Char) : ∀ b, lexLe a b = true ∨ lexLe b a = true := by
  induction a with
  | nil => intro b; exact Or.inl rfl
  | cons x xs ih =>
    intro b
    cases b with
    | nil => exact Or.inr rfl
    | cons y ys =>
      rcases Nat.lt_trichotomy x.toNat y.toNat with h | h | h
      · exact Or.inl (by simp [lexLe, h])
      · have h2 : ¬ x.toNat < y.toNat := by omega
        have h3 : ¬ y.toNat < x.toNat := by omega
        rcases ih ys with hl | hl
        · exact Or.inl (by simp [lexLe, h2, h3, hl])
        · exact Or.inr (by simp [lexLe, h2, h3, hl])
      · exact Or.inr (by simp [lexLe, h])

theorem lexLe_trans (a : List Char) :
    ∀ b c, lexLe a b = true → lexLe b c = true → lexLe a c = true := by
  induction a with
  | nil => intro b c _ _; rfl
  | cons x xs ih =>
    intro b c hab hbc
    cases b with
    | nil => simp [lexLe] at hab
    | cons y ys =>
      cases c with
      | nil => simp [lexLe] at hbc
      | cons z zs =>
        simp only [lexLe] at hab hbc ⊢
        rcases Nat.lt_trichotomy x.toNat y.toNat with hxy | hxy | hxy
        · rcases Nat.lt_trichotomy y.toNat z.toNat with hyz | hyz | hyz
          · have hc : x.toNat < z.toNat := by omega
            simp [hc]
          · have hc : x.toNat < z.toNat := by omega
            simp [hc]
          · have h1 : ¬ y.toNat < z.toNat := by omega
            simp [h1, hyz] at hbc
        · rcases Nat.lt_trichotomy y.toNat z.toNat with hyz | hyz | hyz
          · have hc : x.toNat < z.toNat := by omega
            simp [hc]
          · have h1 : ¬ x.toNat < z.toNat := by omega
            have h2 : ¬ z.toNat < x.toNat := by omega
            have h3 : ¬ x.toNat < y.toNat := by omega
            have h4 : ¬ y.toNat < x.toNat := by omega
            have h5 : ¬ y.toNat < z.toNat := by omega
            have h6 : ¬ z.toNat < y.toNat := by omega
            rw [if_neg h3, if_neg h4] at hab
            rw [if_neg h5, if_neg h6] at hbc
            rw [if_neg h1, if_neg h2]
            exact ih ys zs hab hbc
          · have h1 : ¬ y.toNat < z.toNat := by omega
            simp [h1, hyz] at hbc
        · have h1 : ¬ x.toNat < y.toNat := by omega
          simp [h1, hxy] at hab

theorem strLe_total (a b : String) : strLe a b = true ∨ strLe b a = true :=
  lexLe_total a.toList b.toList

theorem strLe_trans (a b c : String) (h1 : strLe a b = true) (h2 : strLe b c = true) :
    strLe a c = true :=
  lexLe_trans a.toList b.toList c.toList h1 h2

theorem mem_insertLe (x w : String) (l : List String) (hw : w ∈ insertLe x l) :
    w = x ∨ w ∈ l := by
  induction l with
  | nil =>
    rw [insertLe] at hw
    exact Or.inl (List.mem_singleton.mp hw)
  | cons u us ihu =>
    rw [insertLe] at hw
    by_cases hxu : strLe x u = true
    · rw [if_pos hxu] at hw
      rcases List.mem_cons.mp hw with rfl | hw'
      · exact Or.inl rfl
      · exact Or.inr hw'
    · rw [if_neg hxu] at hw
      rcases List.mem_cons.mp hw with rfl | hw'
      · exact Or.inr (List.mem_cons_self ..)
      · rcases ihu hw' with h | h
        · exact Or.inl h
        · exact Or.inr (List.mem_cons_of_mem _ h)

theorem insertLe_pairwise (x : String) (l : List String)
    (hl : List.Pairwise (fun a b => strLe a b = true) l) :
    List.Pairwise (fun a b => strLe a b = true) (insertLe x l) := by
  induction l with
  | nil => simp [insertLe]
  | cons y ys ih =>
    rcases List.pairwise_cons.mp hl with ⟨hy, hys⟩
    by_cases hxy : strLe x y = true
    · rw [insertLe, if_pos hxy]
      refine List.pairwise_cons.mpr ⟨?_, hl⟩
      intro z hz
      rcases List.mem_cons.mp hz with rfl | hz'
      · exact hxy
      · exact strLe_trans x y z hxy (hy z hz')
    · rw [insertLe, if_neg hxy]
      refine List.pairwise_cons.mpr ⟨?_, ih hys⟩
      have hyx : strLe y x = true := (strLe_total x y).resolve_left hxy
      intro z hz
      rcases mem_insertLe x z ys hz with rfl | hz'
      · exact hyx
      · exact hy z hz'

theorem sortStrs_pairwise (l : List String) :
    List.Pairwise (fun a b => strLe a b = true) (sortStrs l) := by
  induction l with
  | nil => simp [sortStrs]
  | cons x xs ih => exact insertLe_pairwise x (sortStrs xs) ih

/-- C9: both vault listings return file paths sorted lexicographically; and in
the scenario of a project containing `README.md` (matched by the default
include patterns) and `node_modules/pkg/readme.md` (excluded by the default
`node_modules/**` pattern), `store` collects exactly `README.md` and a
subsequent per-project `list` returns exactly `["README.md"]`. -/
theorem listVault_sorted_and_scenario :
    (∀ t, List.Pairwise (fun a b => strLe a b = true) (listVaultFiles t)) ∧
    (∀ t cwd, List.Pairwise (fun a b => strLe a b = true) (listVaultFilesForProject t cwd)) ∧
    (collectFiles ["proj"]
        [⟨["README.md"], false, some true⟩, ⟨["node_modules"], true, some false⟩,
          ⟨["node_modules", "pkg"], true, some false⟩,
          ⟨["node_modules", "pkg", "readme.md"], false, some true⟩]
        ⟨"https://github.com/a/b", DEFAULT_INCLUDE, DEFAULT_EXCLUDE, "main"⟩).map
      (fun vf => vf.relativePath) = [["README.md"]] ∧
    listVaultFilesForProject
      (storeToVaultModel
        (collectFiles ["proj"]
          [⟨["README.md"], false, some true⟩, ⟨["node_modules"], true, some false⟩,
            ⟨["node_modules", "pkg"], true, some false⟩,
            ⟨["node_modules", "pkg", "readme.md"], false, some true⟩]
          ⟨"https://github.com/a/b", DEFAULT_INCLUDE, DEFAULT_EXCLUDE, "main"⟩)
        ⟨[(["proj", "README.md"], "# readme"),
          (["proj", "node_modules", "pkg", "readme.md"], "pkg")], [["proj"]]⟩
        ["proj"]
        (.dir [("vault", .dir [(".gitkeep", .file "")])])).remote
      ["proj"] = ["README.md"] := by
  refine ⟨?_, ?_, by decide, by decide⟩
  · intro t
    unfold listVaultFiles
    cases h : t.readAt ["vault"] with
    | none => exact List.Pairwise.nil
    | some node =>
      cases node with
      | file c => exact List.Pairwise.nil
      | dir es => exact sortStrs_pairwise _
  · intro t cwd
    unfold listVaultFilesForProject
    cases h : t.readAt ["vault", getWorkspaceName cwd] with
    | none => exact List.Pairwise.nil
    | some node =>
      cases node with
      | file c => exact List.Pairwise.nil
      | dir es => exact sortStrs_pairwise _

theorem copyFromVault_no_partition_witness :
    copyFromVault (.dir [("vault", .dir [(".gitkeep", .file "")])])
        ⟨[(["p", "x.md"], "x")], [["p"]]⟩ ["p"] (some ["x.md"])
      = (0, ⟨[(["p", "x.md"], "x")], [["p"]]⟩) :=
  (copyFromVault_no_partition (.dir [("vault", .dir [(".gitkeep", .file "")])])
    ⟨[(["p", "x.md"], "x")], [["p"]]⟩ ["p"] rfl (some ["x.md"])).1


/-! ## Directory-tree lemmas -/

theorem findEntry_replaceFirst_same (n : String) (t' : FTree) :
    ∀ es u, findEntry es n = some u → findEntry (replaceFirst es n t') n = some t' := by
  intro es
  induction es with
  | nil => intro u h; cases h
  | cons e rest ih =>
    obtain ⟨m, t0⟩ := e
    intro u h
    by_cases hm : m = n
    · simp [findEntry, replaceFirst, hm]
    · simp only [findEntry, replaceFirst, if_neg hm] at h ⊢
      exact ih u h

theorem findEntry_replaceFirst_ne (n m : String) (t' : FTree) (hnm : m ≠ n) :
    ∀ es, findEntry (replaceFirst es n t') m = findEntry es m := by
  intro es
  induction es with
  | nil => rfl
  | cons e rest ih =>
    obtain ⟨k, t0⟩ := e
    by_cases hk : k = n
    · subst hk
      have hkm : k ≠ m := fun hc => hnm hc.symm
      simp [replaceFirst, findEntry, hkm]
    · by_cases hkm : k = m
      · simp [replaceFirst, findEntry, hk, hkm, hnm]
      · simp [replaceFirst, findEntry, hk, hkm, ih]

theorem findEntry_removeFirst_ne (n m : String) (hnm : m ≠ n) :
    ∀ es, findEntry (removeFirst es n) m = findEntry es m := by
  intro es
  induction es with
  | nil => rfl
  | cons e rest ih =>
    obtain ⟨k, t0⟩ := e
    by_cases hk : k = n
    · subst hk
      have hkm : k ≠ m := fun hc => hnm hc.symm
      simp [removeFirst, findEntry, hkm]
    · by_cases hkm : k = m
      · simp [removeFirst, findEntry, hk, hkm, hnm]
      · simp [removeFirst, findEntry, hk, hkm, ih]

theorem findEntry_append_self (n : String) (u : FTree) :
    ∀ es, findEntry es n = none → findEntry (es ++ [(n, u)]) n = some u := by
  intro es
  induction es with
  | nil => intro _; simp [findEntry]
  | cons e rest ih =>
    obtain ⟨k, t0⟩ := e
    intro h
    by_cases hk : k = n
    · simp [findEntry, hk] at h
    · simp only [findEntry, if_neg hk] at h
      simp only [List.cons_append, findEntry, if_neg hk]
      exact ih h

theorem findEntry_append_ne (n m : String) (u : FTree) (hnm : m ≠ n) :
    ∀ es, findEntry (es ++ [(n, u)]) m = findEntry es m := by
  intro es
  induction es with
  | nil => simp [findEntry, Ne.symm hnm]
  | cons e rest ih =>
    obtain ⟨k, t0⟩ := e
    by_cases hkm : k = m
    · simp [findEntry, hkm]
    · simp only [List.cons_append, findEntry, if_neg hkm]
      exact ih

theorem replaceFirst_self (n : String) :
    ∀ es u, findEntry es n = some u → replaceFirst es n u = es := by
  intro es
  induction es with
  | nil => intro u h; cases h
  | cons e rest ih =>
    obtain ⟨k, t0⟩ := e
    intro u h
    by_cases hk : k = n
    · simp only [findEntry, if_pos hk] at h
      cases h
      simp [replaceFirst, hk]
    · simp only [findEntry, if_neg hk] at h
      simp [replaceFirst, hk, ih u h]

theorem readAt_append (p : Path) : ∀ (t : FTree) (q : Path),
    t.readAt (p ++ q) = (t.readAt p).bind (fun u => u.readAt q) := by
  induction p with
  | nil => intro t q; simp [FTree.readAt]
  | cons n p' ih =>
    intro t q
    cases t with
    | file c => simp [FTree.readAt]
    | dir es =>
      show FTree.readAt (.dir es) (n :: (p' ++ q)) = _
      simp only [FTree.readAt]
      cases findEntry es n with
      | none => simp
      | some u => simp [ih u q]

theorem writeAt_readAt_same (c : String) : ∀ (p : Path) (t : FTree),
    (t.writeAt p c).readAt p = some (.file c) := by
  intro p
  induction p with
  | nil => intro t; cases t <;> rfl
  | cons n q ih =>
    intro t
    cases t with
    | file c0 =>
      simp only [FTree.writeAt, FTree.readAt, findEntry, if_pos rfl]
      exact ih (.dir [])
    | dir es =>
      cases hf : findEntry es n with
      | some u =>
        simp only [FTree.writeAt, hf, FTree.readAt,
          findEntry_replaceFirst_same n (u.writeAt q c) es u hf]
        exact ih u
      | none =>
        simp only [FTree.writeAt, hf, FTree.readAt,
          findEntry_append_self n (FTree.writeAt (.dir []) q c) es hf]
        exact ih (.dir [])

theorem writeAt_readFileAt_same (t : FTree) (p : Path) (c : String) :
    (t.writeAt p c).readFileAt p = some c := by
  simp [FTree.readFileAt, writeAt_readAt_same]

theorem writeAt_empty_readAt_none (c : String) :
    ∀ (p q : Path), diverges p q = true → (FTree.writeAt (.dir []) p c).readAt q = none := by
  intro p
  induction p with
  | nil => intro q h; simp [diverges] at h
  | cons n p' ih =>
    intro q h
    cases q with
    | nil => simp [diverges] at h
    | cons m q' =>
      by_cases hnm : n = m
      · subst hnm
        have h' : diverges p' q' = true := by simpa [diverges] using h
        simp only [FTree.writeAt, findEntry, List.nil_append, FTree.readAt, if_pos rfl]
        exact ih q' h'
      · simp only [FTree.writeAt, findEntry, List.nil_append, FTree.readAt, if_neg hnm]

theorem writeAt_readAt_diverges (c : String) :
    ∀ (p q : Path), diverges p q = true → ∀ (t : FTree),
      (t.writeAt p c).readAt q = t.readAt q := by
  intro p
  induction p with
  | nil => intro q h; simp [diverges] at h
  | cons n p' ih =>
    intro q h t
    cases q with
    | nil => simp [diverges] at h
    | cons m q' =>
      by_cases hnm : n = m
      · subst hnm
        have h' : diverges p' q' = true := by simpa [diverges] using h
        cases t with
        | file c0 =>
          simp only [FTree.writeAt, FTree.readAt, findEntry, if_pos rfl]
          exact writeAt_empty_readAt_none c p' q' h'
        | dir es =>
          cases hf : findEntry es n with
          | some u =>
            simp only [FTree.writeAt, hf, FTree.readAt,
              findEntry_replaceFirst_same n (u.writeAt p' c) es u hf]
            rw [ih q' h' u]
          | none =>
            simp only [FTree.writeAt, hf, FTree.readAt,
              findEntry_append_self n (FTree.writeAt (.dir []) p' c) es hf]
            exact writeAt_empty_readAt_none c p' q' h'
      · cases t with
        | file c0 =>
          simp only [FTree.writeAt, FTree.readAt, findEntry, if_neg hnm]
        | dir es =>
          cases hf : findEntry es n with
          | some u =>
            simp only [FTree.writeAt, hf, FTree.readAt,
              findEntry_replaceFirst_ne n m (u.writeAt p' c) (fun hc => hnm hc.symm) es]
          | none =>
            simp only [FTree.writeAt, hf, FTree.readAt,
              findEntry_append_ne n m (FTree.writeAt (.dir []) p' c) (fun hc => hnm hc.symm) es]

theorem writeAt_isDir (c : String) (p : Path) (hp : p ≠ []) (t : FTree) :
    ∃ es, t.writeAt p c = .dir es := by
  cases p with
  | nil => exact absurd rfl hp
  | cons n q =>
    cases t with
    | file c0 => exact ⟨_, rfl⟩
    | dir es =>
      cases hf : findEntry es n with
      | some u =>
        exact ⟨replaceFirst es n (u.writeAt q c), by simp [FTree.writeAt, hf]⟩
      | none =>
        exact ⟨es ++ [(n, FTree.writeAt (.dir []) q c)], by simp [FTree.writeAt, hf]⟩

theorem writeAt_readAt_strict_prefix (c : String) :
    ∀ (q p : Path) (t : FTree), underDir q p = true → q ≠ p →
      ∃ es, (t.writeAt p c).readAt q = some (.dir es) := by
  intro q
  induction q with
  | nil =>
    intro p t hu hne
    have hp : p ≠ [] := fun hc => hne hc.symm
    obtain ⟨es, hes⟩ := writeAt_isDir c p hp t
    exact ⟨es, by simp [hes, FTree.readAt]⟩
  | cons m q' ih =>
    intro p t hu hne
    cases p with
    | nil => simp [underDir] at hu
    | cons n p' =>
      have hmn : m = n := by
        by_contra hc
        simp [underDir, hc] at hu
      subst hmn
      have hu' : underDir q' p' = true := by simpa [underDir] using hu
      have hne' : q' ≠ p' := fun hc => hne (by rw [hc])
      cases t with
      | file c0 =>
        simp only [FTree.writeAt, FTree.readAt, findEntry, if_pos rfl]
        exact ih p' (.dir []) hu' hne'
      | dir es =>
        cases hf : findEntry es m with
        | some u =>
          simp only [FTree.writeAt, hf, FTree.readAt,
            findEntry_replaceFirst_same m (u.writeAt p' c) es u hf]
          exact ih p' u hu' hne'
        | none =>
          simp only [FTree.writeAt, hf, FTree.readAt,
            findEntry_append_self m (FTree.writeAt (.dir []) p' c) es hf]
          exact ih p' (.dir []) hu' hne'

theorem writeAt_self_eq (c : String) :
    ∀ (p : Path) (t : FTree), t.readFileAt p = some c → t.writeAt p c = t := by
  intro p
  induction p with
  | nil =>
    intro t h
    cases t with
    | file c0 =>
      simp only [FTree.readFileAt, FTree.readAt] at h
      cases h
      rfl
    | dir es => simp [FTree.readFileAt, FTree.readAt] at h
  | cons n q ih =>
    intro t h
    cases t with
    | file c0 => simp [FTree.readFileAt, FTree.readAt] at h
    | dir es =>
      simp only [FTree.readFileAt, FTree.readAt] at h
      cases hf : findEntry es n with
      | none => rw [hf] at h; cases h
      | some u =>
        rw [hf] at h
        have hu : u.readFileAt q = some c := by
          simpa [FTree.readFileAt] using h
        simp only [FTree.writeAt, hf, ih u hu, replaceFirst_self n es u hf]

theorem underDir_append_self (pp : Path) : ∀ rel, underDir pp (pp ++ rel) = true := by
  induction pp with
  | nil => intro rel; rfl
  | cons a pp' ih => intro rel; simp [underDir, ih]

theorem underDir_of_underDir_append (q : Path) :
    ∀ pp rel, underDir q (pp ++ rel) = true → underDir q pp = true ∨ underDir pp q = true := by
  induction q with
  | nil => intro pp rel _; exact Or.inl rfl
  | cons a q' ih =>
    intro pp rel hu
    cases pp with
    | nil => exact Or.inr rfl
    | cons b pp' =>
      simp only [List.cons_append, underDir, Bool.and_eq_true, decide_eq_true_eq] at hu
      rcases hu with ⟨rfl, hu'⟩
      rcases ih pp' rel hu' with h | h
      · exact Or.inl (by simp [underDir, h])
      · exact Or.inr (by simp [underDir, h])

theorem path_rel_cases (p : Path) :
    ∀ q, underDir p q = true ∨ underDir q p = true ∨ diverges p q = true := by
  induction p with
  | nil => intro q; exact Or.inl rfl
  | cons a p' ih =>
    intro q
    cases q with
    | nil => exact Or.inr (Or.inl rfl)
    | cons b q' =>
      by_cases hab : a = b
      · subst hab
        rcases ih q' with h | h | h
        · exact Or.inl (by simp [underDir, h])
        · exact Or.inr (Or.inl (by simp [underDir, h]))
        · exact Or.inr (Or.inr (by simp [diverges, h]))
      · exact Or.inr (Or.inr (by simp [diverges, hab]))

theorem underDir_refl (p : Path) : underDir p p = true := by
  induction p with
  | nil => rfl
  | cons a p' ih => simp [underDir, ih]

theorem underDir_trans (a : Path) :
    ∀ b c, underDir a b = true → underDir b c = true → underDir a c = true := by
  induction a with
  | nil => intro b c _ _; rfl
  | cons x a' ih =>
    intro b c hab hbc
    cases b with
    | nil => simp [underDir] at hab
    | cons y b' =>
      simp only [underDir, Bool.and_eq_true, decide_eq_true_eq] at hab
      rcases hab with ⟨rfl, hab'⟩
      cases c with
      | nil => simp [underDir] at hbc
      | cons z c' =>
        simp only [underDir, Bool.and_eq_true, decide_eq_true_eq] at hbc ⊢
        rcases hbc with ⟨rfl, hbc'⟩
        exact ⟨rfl, ih b' c' hab' hbc'⟩

theorem underDir_pair (a b : String) :
    ∀ q, underDir q [a, b] = true → q = [] ∨ q = [a] ∨ q = [a, b] := by
  intro q
  cases q with
  | nil => intro _; exact Or.inl rfl
  | cons x q1 =>
    cases q1 with
    | nil =>
      intro h
      simp only [underDir, Bool.and_eq_true, decide_eq_true_eq] at h
      exact Or.inr (Or.inl (by rw [h.1]))
    | cons y q2 =>
      cases q2 with
      | nil =>
        intro h
        simp only [underDir, Bool.and_eq_true, decide_eq_true_eq] at h
        exact Or.inr (Or.inr (by rw [h.1, h.2.1]))
      | cons z q3 =>
        intro h
        simp [underDir] at h

theorem setAtO_readAt_diverges (o : Option FTree) :
    ∀ (p q : Path), diverges p q = true → ∀ (t : FTree),
      (t.setAtO p o).readAt q = t.readAt q := by
  intro p
  induction p with
  | nil => intro q h; simp [diverges] at h
  | cons n p' ih =>
    intro q h t
    cases q with
    | nil => simp [diverges] at h
    | cons m q' =>
      by_cases hnm : n = m
      · subst hnm
        have h' : diverges p' q' = true := by simpa [diverges] using h
        cases t with
        | file c0 => rfl
        | dir es =>
          cases p' with
          | nil => simp [diverges] at h'
          | cons b p2 =>
            cases hf : findEntry es n with
            | some u =>
              simp only [FTree.setAtO, hf, FTree.readAt,
                findEntry_replaceFirst_same n (u.setAtO (b :: p2) o) es u hf]
              rw [ih q' h' u]
            | none =>
              simp [FTree.setAtO, hf]
      · cases t with
        | file c0 => rfl
        | dir es =>
          cases p' with
          | nil =>
            cases o with
            | some x =>
              simp only [FTree.setAtO, FTree.readAt,
                findEntry_replaceFirst_ne n m x (fun hc => hnm hc.symm) es]
            | none =>
              simp only [FTree.setAtO, FTree.readAt,
                findEntry_removeFirst_ne n m (fun hc => hnm hc.symm) es]
          | cons b p2 =>
            cases hf : findEntry es n with
            | some u =>
              simp only [FTree.setAtO, hf, FTree.readAt,
                findEntry_replaceFirst_ne n m (u.setAtO (b :: p2) o) (fun hc => hnm hc.symm) es]
            | none => simp [FTree.setAtO, hf]

theorem setAtO_readAt_some (x : FTree) :
    ∀ (p : Path) (t : FTree) (w : FTree), p ≠ [] → t.readAt p = some w →
      (t.setAtO p (some x)).readAt p = some x := by
  intro p
  induction p with
  | nil => intro t w h _; exact absurd rfl h
  | cons n p' ih =>
    intro t w _ hr
    cases t with
    | file c0 => simp [FTree.readAt] at hr
    | dir es =>
      simp only [FTree.readAt] at hr
      cases hf : findEntry es n with
      | none => rw [hf] at hr; cases hr
      | some u =>
        rw [hf] at hr
        cases p' with
        | nil =>
          simp only [FTree.setAtO, FTree.readAt, findEntry_replaceFirst_same n x es u hf]
        | cons b p2 =>
          simp only [FTree.setAtO, hf, FTree.readAt,
            findEntry_replaceFirst_same n (u.setAtO (b :: p2) (some x)) es u hf]
          exact ih u w (by simp) hr

theorem wfEntries_cons (n : String) (t : FTree) (es : List (String × FTree)) :
    wfEntries ((n, t) :: es) = ((findEntry es n).isNone && wfTree t && wfEntries es) := rfl

theorem wfTree_findEntry (n : String) :
    ∀ es u, wfEntries es = true → findEntry es n = some u → wfTree u = true := by
  intro es
  induction es with
  | nil => intro u _ h; cases h
  | cons e rest ih =>
    obtain ⟨k, t0⟩ := e
    intro u hwf h
    rw [wfEntries_cons] at hwf
    simp only [Bool.and_eq_true] at hwf
    by_cases hk : k = n
    · simp only [findEntry, if_pos hk] at h
      cases h
      exact hwf.1.2
    · simp only [findEntry, if_neg hk] at h
      exact ih u hwf.2 h

theorem findEntry_removeFirst_self (n : String) :
    ∀ es, wfEntries es = true → findEntry (removeFirst es n) n = none := by
  intro es
  induction es with
  | nil => intro _; rfl
  | cons e rest ih =>
    obtain ⟨k, t0⟩ := e
    intro hwf
    rw [wfEntries_cons] at hwf
    simp only [Bool.and_eq_true] at hwf
    by_cases hk : k = n
    · subst hk
      rw [removeFirst, if_pos rfl]
      exact Option.isNone_iff_eq_none.mp hwf.1.1
    · rw [removeFirst, if_neg hk, findEntry, if_neg hk]
      exact ih hwf.2

theorem setAtO_none_readAt :
    ∀ (p : Path) (t : FTree), p ≠ [] → wfTree t = true →
      (t.setAtO p none).readAt p = none := by
  intro p
  induction p with
  | nil => intro t h _; exact absurd rfl h
  | cons n p' ih =>
    intro t _ hwf
    cases t with
    | file c0 => rfl
    | dir es =>
      have hwfe : wfEntries es = true := by simpa [wfTree] using hwf
      cases p' with
      | nil =>
        simp only [FTree.setAtO, FTree.readAt, findEntry_removeFirst_self n es hwfe]
      | cons b p2 =>
        cases hf : findEntry es n with
        | none => simp [FTree.setAtO, hf, FTree.readAt]
        | some u =>
          simp only [FTree.setAtO, hf, FTree.readAt,
            findEntry_replaceFirst_same n (u.setAtO (b :: p2) none) es u hf]
          exact ih u (by simp) (wfTree_findEntry n es u hwfe hf)


/-! ## Workspace isolation (claim C2) -/

theorem readFileAt_of_readAt_dir {t : FTree} {q : Path} {es : List (String × FTree)}
    (h : t.readAt q = some (.dir es)) : t.readFileAt q = none := by
  rw [FTree.readFileAt, h]

theorem readFileAt_of_readAt_none {t : FTree} {q : Path} (h : t.readAt q = none) :
    t.readFileAt q = none := by
  rw [FTree.readFileAt, h]

theorem readFileAt_nil_dir (es : List (String × FTree)) :
    (FTree.dir es).readFileAt [] = none := rfl

theorem readFileAt_congr {t1 t2 : FTree} {q : Path} (h : t1.readAt q = t2.readAt q) :
    t1.readFileAt q = t2.readFileAt q := by
  rw [FTree.readFileAt, FTree.readFileAt, h]

theorem writeAt_dest_outside (t : FTree) (ws : String) (rel : Path) (c : String)
    (hdir : ∃ es0, t = FTree.dir es0) (hvault : t.readFileAt ["vault"] = none) :
    ∀ q, underDir ["vault", ws] q = false →
      (t.writeAt (["vault", ws] ++ rel) c).readFileAt q = t.readFileAt q := by
  intro q hq
  rcases path_rel_cases (["vault", ws] ++ rel) q with h | h | h
  · have hcon : underDir ["vault", ws] q = true :=
      underDir_trans _ _ _ (underDir_append_self ["vault", ws] rel) h
    rw [hcon] at hq; cases hq
  · by_cases hqp : q = ["vault", ws] ++ rel
    · have hcon : underDir ["vault", ws] q = true := by
        rw [hqp]; exact underDir_append_self _ _
      rw [hcon] at hq; cases hq
    · obtain ⟨es1, h1⟩ := writeAt_readAt_strict_prefix c q _ t h hqp
      have hnew : (t.writeAt (["vault", ws] ++ rel) c).readFileAt q = none :=
        readFileAt_of_readAt_dir h1
      rcases underDir_of_underDir_append q _ rel h with hqpp | hcon
      · rcases underDir_pair "vault" ws q hqpp with rfl | rfl | rfl
        · obtain ⟨es0, rfl⟩ := hdir
          rw [hnew, readFileAt_nil_dir]
        · rw [hnew, hvault]
        · rw [underDir_refl] at hq; cases hq
      · rw [hcon] at hq; cases hq
  · exact readFileAt_congr (writeAt_readAt_diverges c _ q h t)

theorem copyToVault_outside (fs : Fs) (cwd : Path) :
    ∀ (files : List VaultFile) (t : FTree),
      (∃ es0, t = FTree.dir es0) →
      t.readFileAt ["vault"] = none →
      (∃ es1, copyToVault files t fs cwd = FTree.dir es1) ∧
      (copyToVault files t fs cwd).readFileAt ["vault"] = none ∧
      (∀ q, underDir ["vault", getWorkspaceName cwd] q = false →
        (copyToVault files t fs cwd).readFileAt q = t.readFileAt q) := by
  intro files
  induction files with
  | nil => intro t hdir hv; exact ⟨hdir, hv, fun q _ => rfl⟩
  | cons vf rest ih =>
    intro t hdir hv
    cases hc : fs.readFile vf.path with
    | none =>
      have hstep : copyToVault (vf :: rest) t fs cwd = copyToVault rest t fs cwd := by
        simp [copyToVault, hc]
      rw [hstep]
      exact ih t hdir hv
    | some c =>
      have hstep : copyToVault (vf :: rest) t fs cwd
          = copyToVault rest
              (t.writeAt (["vault", getWorkspaceName cwd] ++ vf.relativePath) c) fs cwd := by
        simp [copyToVault, hc]
      rw [hstep]
      have hdir' : ∃ es1,
          t.writeAt (["vault", getWorkspaceName cwd] ++ vf.relativePath) c = FTree.dir es1 :=
        writeAt_isDir c _ (by simp) t
      have hv' : (t.writeAt (["vault", getWorkspaceName cwd] ++ vf.relativePath) c).readFileAt
          ["vault"] = none := by
        obtain ⟨es1, h1⟩ := writeAt_readAt_strict_prefix c ["vault"]
          (["vault", getWorkspaceName cwd] ++ vf.relativePath) t (by simp [underDir]) (by simp)
        exact readFileAt_of_readAt_dir h1
      obtain ⟨ih1, ih2, ih3⟩ := ih _ hdir' hv'
      refine ⟨ih1, ih2, ?_⟩
      intro q hq
      rw [ih3 q hq]
      exact writeAt_dest_outside t (getWorkspaceName cwd) vf.relativePath c hdir hv q hq

theorem copyToVault_readAt_diverges (fs : Fs) (cwd : Path) (q0 : Path)
    (hdiv : ∀ rel, diverges (["vault", getWorkspaceName cwd] ++ rel) q0 = true) :
    ∀ (files : List VaultFile) (t : FTree),
      (copyToVault files t fs cwd).readAt q0 = t.readAt q0 := by
  intro files
  induction files with
  | nil => intro t; rfl
  | cons vf rest ih =>
    intro t
    cases hc : fs.readFile vf.path with
    | none =>
      have hstep : copyToVault (vf :: rest) t fs cwd = copyToVault rest t fs cwd := by
        simp [copyToVault, hc]
      rw [hstep]
      exact ih t
    | some c =>
      have hstep : copyToVault (vf :: rest) t fs cwd
          = copyToVault rest
              (t.writeAt (["vault", getWorkspaceName cwd] ++ vf.relativePath) c) fs cwd := by
        simp [copyToVault, hc]
      rw [hstep, ih]
      exact writeAt_readAt_diverges c _ q0 (hdiv vf.relativePath) t

theorem removeExcludedFromVault_readAt_other (t : FTree) (cwd : Path) (allowed : List Path)
    (q0 : Path) (hdiv : diverges ["vault", getWorkspaceName cwd] q0 = true) :
    (removeExcludedFromVault t cwd allowed).readAt q0 = t.readAt q0 := by
  have hunfold : removeExcludedFromVault t cwd allowed
      = match t.readAt ["vault", getWorkspaceName cwd] with
        | some (.dir es) => t.setAtO ["vault", getWorkspaceName cwd]
            (pruneTree (.dir (removeDisEntries allowed [] es)))
        | some (.file _) => t
        | none => t := rfl
  rw [hunfold]
  cases h : t.readAt ["vault", getWorkspaceName cwd] with
  | none => rfl
  | some node =>
    cases node with
    | file c => rfl
    | dir es => exact setAtO_readAt_diverges _ _ q0 hdiv t

theorem copyFromVault_depends_on_partition (t1 t2 : FTree) (fs : Fs) (cwd : Path)
    (sp : Option (List String))
    (h : t1.readAt ["vault", getWorkspaceName cwd] = t2.readAt ["vault", getWorkspaceName cwd]) :
    copyFromVault t1 fs cwd sp = copyFromVault t2 fs cwd sp := by
  simp only [copyFromVault]
  rw [h]

/-- C2 (amended): copy-in writes files only under the project's own workspace
partition, copy-out reads only from that partition, and for two project
directories with distinct workspace names (distinct basenames, where an empty
basename falls back to "default"), the whole copy-in phase of a store from one
leaves the other's pull unchanged. -/
theorem workspace_isolation (files : List VaultFile) (t : FTree) (fs fsB : Fs)
    (cwdA cwdB : Path) (sp : Option (List String))
    (hdir : ∃ es0, t = FTree.dir es0)
    (hvault : t.readFileAt ["vault"] = none)
    (hws : getWorkspaceName cwdA ≠ getWorkspaceName cwdB) :
    (∀ q, underDir ["vault", getWorkspaceName cwdA] q = false →
      (copyToVault files t fs cwdA).readFileAt q = t.readFileAt q) ∧
    (∀ t1 t2, t1.readAt ["vault", getWorkspaceName cwdB]
        = t2.readAt ["vault", getWorkspaceName cwdB] →
      copyFromVault t1 fsB cwdB sp = copyFromVault t2 fsB cwdB sp) ∧
    copyFromVault (storePhase files fs cwdA t) fsB cwdB sp = copyFromVault t fsB cwdB sp := by
  have hdivB : ∀ rel,
      diverges (["vault", getWorkspaceName cwdA] ++ rel) ["vault", getWorkspaceName cwdB]
        = true := by
    intro rel
    simp [diverges, hws]
  refine ⟨(copyToVault_outside fs cwdA files t hdir hvault).2.2,
    fun t1 t2 h => copyFromVault_depends_on_partition t1 t2 fsB cwdB sp h, ?_⟩
  apply copyFromVault_depends_on_partition
  rw [storePhase, removeExcludedFromVault_readAt_other _ cwdA _ _ (by simpa using hdivB [])]
  exact copyToVault_readAt_diverges fs cwdA _ hdivB files t

theorem workspace_isolation_witness :
    (copyToVault [⟨["pA", "a.md"], ["a.md"]⟩]
        (FTree.dir [("vault", FTree.dir [(".gitkeep", FTree.file "")])])
        ⟨[(["pA", "a.md"], "A")], []⟩ ["pA"]).readFileAt ["vault", ".gitkeep"]
      = (FTree.dir [("vault", FTree.dir [(".gitkeep", FTree.file "")])]).readFileAt
          ["vault", ".gitkeep"] ∧
    copyFromVault
        (storePhase [⟨["pA", "a.md"], ["a.md"]⟩] ⟨[(["pA", "a.md"], "A")], []⟩ ["pA"]
          (FTree.dir [("vault", FTree.dir [(".gitkeep", FTree.file "")])]))
        ⟨[], []⟩ ["pB"] none
      = copyFromVault (FTree.dir [("vault", FTree.dir [(".gitkeep", FTree.file "")])])
          ⟨[], []⟩ ["pB"] none := by
  have h := workspace_isolation [⟨["pA", "a.md"], ["a.md"]⟩]
    (FTree.dir [("vault", FTree.dir [(".gitkeep", FTree.file "")])])
    ⟨[(["pA", "a.md"], "A")], []⟩ ⟨[], []⟩ ["pA"] ["pB"] none
    ⟨[("vault", FTree.dir [(".gitkeep", FTree.file "")])], rfl⟩ rfl (by decide)
  exact ⟨h.1 ["vault", ".gitkeep"] (by decide), h.2.2⟩

/-- C2 counterexample: the project roots `[]` (basename `""`) and
`["default"]` (basename `"default"`) have distinct basenames but share the
workspace `"default"` (the empty basename falls back to it), so storing from
the first changes what the second's pull retrieves. -/
theorem workspace_isolation_counterexample :
    basename ([] : Path) ≠ basename ["default"] ∧
    (copyFromVault (FTree.dir []) ⟨[], []⟩ ["default"] none).1 = 0 ∧
    (copyFromVault
        (storePhase [⟨["x.md"], ["x.md"]⟩] ⟨[(["x.md"], "hi")], []⟩ [] (FTree.dir []))
        ⟨[], []⟩ ["default"] none).1 = 1 := by
  exact ⟨by decide, by decide, by decide⟩


/-! ## Well-formedness preservation -/

theorem wfEntries_replaceFirst (n : String) (t' : FTree) (hwt : wfTree t' = true) :
    ∀ es, wfEntries es = true → wfEntries (replaceFirst es n t') = true := by
  intro es
  induction es with
  | nil => intro _; rfl
  | cons e rest ih =>
    obtain ⟨k, t0⟩ := e
    intro hwf
    rw [wfEntries_cons] at hwf
    simp only [Bool.and_eq_true] at hwf
    by_cases hk : k = n
    · rw [replaceFirst, if_pos hk, wfEntries_cons]
      simp only [Bool.and_eq_true]
      exact ⟨⟨hwf.1.1, hwt⟩, hwf.2⟩
    · rw [replaceFirst, if_neg hk, wfEntries_cons]
      simp only [Bool.and_eq_true]
      refine ⟨⟨?_, hwf.1.2⟩, ih hwf.2⟩
      rw [findEntry_replaceFirst_ne n k t' hk]
      exact hwf.1.1

theorem wfEntries_removeFirst (n : String) :
    ∀ es, wfEntries es = true → wfEntries (removeFirst es n) = true := by
  intro es
  induction es with
  | nil => intro _; rfl
  | cons e rest ih =>
    obtain ⟨k, t0⟩ := e
    intro hwf
    rw [wfEntries_cons] at hwf
    simp only [Bool.and_eq_true] at hwf
    by_cases hk : k = n
    · rw [removeFirst, if_pos hk]
      exact hwf.2
    · rw [removeFirst, if_neg hk, wfEntries_cons]
      simp only [Bool.and_eq_true]
      refine ⟨⟨?_, hwf.1.2⟩, ih hwf.2⟩
      rw [findEntry_removeFirst_ne n k hk]
      exact hwf.1.1

theorem wfEntries_append_new (n : String) (w : FTree) (hw : wfTree w = true) :
    ∀ es, wfEntries es = true → findEntry es n = none →
      wfEntries (es ++ [(n, w)]) = true := by
  intro es
  induction es with
  | nil =>
    intro _ _
    rw [List.nil_append, wfEntries_cons]
    simp [hw, wfEntries, findEntry]
  | cons e rest ih =>
    obtain ⟨k, t0⟩ := e
    intro hwf hn
    have hk : k ≠ n := by
      intro hc
      rw [findEntry, if_pos hc] at hn
      cases hn
    rw [findEntry, if_neg hk] at hn
    rw [wfEntries_cons] at hwf
    simp only [Bool.and_eq_true] at hwf
    rw [List.cons_append, wfEntries_cons]
    simp only [Bool.and_eq_true]
    refine ⟨⟨?_, hwf.1.2⟩, ih hwf.2 hn⟩
    rw [findEntry_append_ne n k w hk]
    exact hwf.1.1

theorem wf_writeAt (c : String) :
    ∀ (p : Path) (t : FTree), wfTree t = true → wfTree (t.writeAt p c) = true := by
  intro p
  induction p with
  | nil => intro t _; cases t <;> rfl
  | cons n q ih =>
    intro t hwf
    cases t with
    | file c0 =>
      show wfTree (.dir [(n, FTree.writeAt (.dir []) q c)]) = true
      have : wfTree (FTree.writeAt (.dir []) q c) = true := ih (.dir []) rfl
      simp [wfTree, wfEntries, findEntry, this]
    | dir es =>
      have hwfe : wfEntries es = true := by simpa [wfTree] using hwf
      cases hf : findEntry es n with
      | some u =>
        have hwu : wfTree (u.writeAt q c) = true :=
          ih u (wfTree_findEntry n es u hwfe hf)
        simp only [FTree.writeAt, hf]
        simpa [wfTree] using wfEntries_replaceFirst n (u.writeAt q c) hwu es hwfe
      | none =>
        have hww : wfTree (FTree.writeAt (.dir []) q c) = true := ih (.dir []) rfl
        simp only [FTree.writeAt, hf]
        simpa [wfTree] using wfEntries_append_new n _ hww es hwfe hf

theorem wf_copyToVault (fs : Fs) (cwd : Path) :
    ∀ (files : List VaultFile) (t : FTree), wfTree t = true →
      wfTree (copyToVault files t fs cwd) = true := by
  intro files
  induction files with
  | nil => intro t h; exact h
  | cons vf rest ih =>
    intro t h
    cases hc : fs.readFile vf.path with
    | none =>
      have hstep : copyToVault (vf :: rest) t fs cwd = copyToVault rest t fs cwd := by
        simp [copyToVault, hc]
      rw [hstep]; exact ih t h
    | some c =>
      have hstep : copyToVault (vf :: rest) t fs cwd
          = copyToVault rest
              (t.writeAt (["vault", getWorkspaceName cwd] ++ vf.relativePath) c) fs cwd := by
        simp [copyToVault, hc]
      rw [hstep]
      exact ih _ (wf_writeAt c _ t h)

theorem removeDis_findEntry_none (allowed : List Path) (n : String) :
    ∀ pre es, findEntry es n = none → findEntry (removeDisEntries allowed pre es) n = none := by
  intro pre es
  induction es generalizing pre with
  | nil => intro _; rfl
  | cons e rest ih =>
    obtain ⟨k, t0⟩ := e
    intro hn
    have hk : k ≠ n := by
      intro hc; rw [findEntry, if_pos hc] at hn; cases hn
    rw [findEntry, if_neg hk] at hn
    cases t0 with
    | file c =>
      by_cases hall : (pre ++ [k]) ∈ allowed
      · rw [removeDisEntries, if_pos hall, findEntry, if_neg hk]
        exact ih pre hn
      · rw [removeDisEntries, if_neg hall]
        exact ih pre hn
    | dir ds =>
      rw [removeDisEntries, findEntry, if_neg hk]
      exact ih pre hn

theorem wf_removeDis (allowed : List Path) :
    ∀ (pre : Path) (es : List (String × FTree)), wfEntries es = true →
      wfEntries (removeDisEntries allowed pre es) = true := by
  refine removeDisEntries.induct allowed
    (fun pre t => wfTree t = true → wfTree (removeDisTree allowed pre t) = true)
    (fun pre es => wfEntries es = true → wfEntries (removeDisEntries allowed pre es) = true)
    ?_ ?_ ?_ ?_ ?_ ?_
  · intro _ _ h; exact h
  · intro pre ds ih h
    show wfTree (.dir (removeDisEntries allowed pre ds)) = true
    simpa [wfTree] using ih (by simpa [wfTree] using h)
  · intro _ _; rfl
  · intro pre n es a hall ih hwf
    rw [wfEntries_cons] at hwf
    simp only [Bool.and_eq_true] at hwf
    rw [removeDisEntries, if_pos hall, wfEntries_cons]
    simp only [Bool.and_eq_true]
    exact ⟨⟨by simp [removeDis_findEntry_none allowed n pre es
        (Option.isNone_iff_eq_none.mp hwf.1.1)], rfl⟩, ih hwf.2⟩
  · intro pre n es a hall ih hwf
    rw [wfEntries_cons] at hwf
    simp only [Bool.and_eq_true] at hwf
    rw [removeDisEntries, if_neg hall]
    exact ih hwf.2
  · intro pre n es a ih1 ih2 hwf
    rw [wfEntries_cons] at hwf
    simp only [Bool.and_eq_true] at hwf
    rw [removeDisEntries, wfEntries_cons]
    simp only [Bool.and_eq_true]
    refine ⟨⟨by simp [removeDis_findEntry_none allowed n pre es
        (Option.isNone_iff_eq_none.mp hwf.1.1)], ?_⟩, ih2 hwf.2⟩
    exact ih1 hwf.1.2

theorem prune_findEntry_none (n : String) :
    ∀ es, findEntry es n = none → findEntry (pruneEntries es) n = none := by
  intro es
  induction es with
  | nil => intro _; rfl
  | cons e rest ih =>
    obtain ⟨k, t0⟩ := e
    intro hn
    have hk : k ≠ n := by
      intro hc; rw [findEntry, if_pos hc] at hn; cases hn
    rw [findEntry, if_neg hk] at hn
    rw [pruneEntries]
    cases pruneTree t0 with
    | some t1 =>
      rw [findEntry, if_neg hk]
      exact ih hn
    | none => exact ih hn

theorem wf_prune :
    ∀ (es : List (String × FTree)), wfEntries es = true →
      wfEntries (pruneEntries es) = true := by
  refine pruneEntries.induct
    (fun t => ∀ t', pruneTree t = some t' → wfTree t = true → wfTree t' = true)
    (fun es => wfEntries es = true → wfEntries (pruneEntries es) = true)
    ?_ ?_ ?_ ?_ ?_ ?_
  · intro a t' h hw
    rw [pruneTree] at h
    cases h
    exact hw
  · intro a hempty ih t' h _
    rw [pruneTree, hempty] at h
    cases h
  · intro a e es' hcons ih t' h hw
    rw [pruneTree, hcons] at h
    cases h
    show wfTree (.dir (e :: es')) = true
    rw [← hcons]
    simpa [wfTree] using ih (by simpa [wfTree] using hw)
  · intro _; rfl
  · intro n t es t1 hp ih1 ih2 hwf
    rw [wfEntries_cons] at hwf
    simp only [Bool.and_eq_true] at hwf
    rw [pruneEntries, hp, wfEntries_cons]
    simp only [Bool.and_eq_true]
    refine ⟨⟨by simp [prune_findEntry_none n es
        (Option.isNone_iff_eq_none.mp hwf.1.1)], ih1 t1 hp hwf.1.2⟩, ih2 hwf.2⟩
  · intro n t es hp ih1 ih2 hwf
    rw [wfEntries_cons] at hwf
    simp only [Bool.and_eq_true] at hwf
    rw [pruneEntries, hp]
    exact ih2 hwf.2

theorem wf_setAtO :
    ∀ (p : Path) (t : FTree) (o : Option FTree), wfTree t = true →
      (∀ x, o = some x → wfTree x = true) → wfTree (t.setAtO p o) = true := by
  intro p
  induction p with
  | nil => intro t o h _; cases t <;> exact h
  | cons n q ih =>
    intro t o hwf ho
    cases t with
    | file c0 => exact hwf
    | dir es =>
      have hwfe : wfEntries es = true := by simpa [wfTree] using hwf
      cases q with
      | nil =>
        cases o with
        | some x =>
          show wfTree (.dir (replaceFirst es n x)) = true
          simpa [wfTree] using wfEntries_replaceFirst n x (ho x rfl) es hwfe
        | none =>
          show wfTree (.dir (removeFirst es n)) = true
          simpa [wfTree] using wfEntries_removeFirst n es hwfe
      | cons b q2 =>
        cases hf : findEntry es n with
        | none =>
          simp only [FTree.setAtO, hf]
          exact hwf
        | some u =>
          have hwu : wfTree (u.setAtO (b :: q2) o) = true :=
            ih u o (wfTree_findEntry n es u hwfe hf) ho
          simp only [FTree.setAtO, hf]
          simpa [wfTree] using wfEntries_replaceFirst n _ hwu es hwfe

theorem readAt_wfTree :
    ∀ (p : Path) (t u : FTree), wfTree t = true → t.readAt p = some u → wfTree u = true := by
  intro p
  induction p with
  | nil =>
    intro t u hw h
    cases t with
    | file c => cases h; exact hw
    | dir es => cases h; exact hw
  | cons n q ih =>
    intro t u hw h
    cases t with
    | file c => cases h
    | dir es =>
      simp only [FTree.readAt] at h
      cases hf : findEntry es n with
      | none => rw [hf] at h; cases h
      | some w =>
        rw [hf] at h
        exact ih w u (wfTree_findEntry n es w (by simpa [wfTree] using hw) hf) h

theorem wf_removeExcludedFromVault (t : FTree) (cwd : Path) (allowed : List Path)
    (hwf : wfTree t = true) : wfTree (removeExcludedFromVault t cwd allowed) = true := by
  have hunfold : removeExcludedFromVault t cwd allowed
      = match t.readAt ["vault", getWorkspaceName cwd] with
        | some (.dir es) => t.setAtO ["vault", getWorkspaceName cwd]
            (pruneTree (.dir (removeDisEntries allowed [] es)))
        | some (.file _) => t
        | none => t := rfl
  rw [hunfold]
  cases h : t.readAt ["vault", getWorkspaceName cwd] with
  | none => exact hwf
  | some node =>
    cases node with
    | file c => exact hwf
    | dir es =>
      apply wf_setAtO _ t _ hwf
      intro x hx
      cases hpe : pruneEntries (removeDisEntries allowed [] es) with
      | nil => rw [pruneTree, hpe] at hx; cases hx
      | cons e es2 =>
        rw [pruneTree, hpe] at hx
        cases hx
        show wfTree (.dir (e :: es2)) = true
        rw [← hpe]
        -- wf of the pruned, dis-removed entries; es is wf because it is a
        -- subtree of the wf tree t
        have hwes : wfEntries es = true := by
          have := readAt_wfTree ["vault", getWorkspaceName cwd] t (.dir es) hwf h
          simpa [wfTree] using this
        simpa [wfTree] using wf_prune _ (wf_removeDis allowed [] es hwes)



/-! ## Walk, prune and presence lemmas -/

theorem diverges_comm : ∀ (a b : Path), diverges a b = diverges b a := by
  intro a
  induction a with
  | nil => intro b; cases b <;> rfl
  | cons x a2 ih =>
    intro b
    cases b with
    | nil => rfl
    | cons y b2 =>
      by_cases hxy : x = y
      · subst hxy
        simp [diverges, ih]
      · have hyx : ¬ y = x := fun hc => hxy hc.symm
        simp [diverges, hxy, hyx]

theorem diverges_append : ∀ (x a b : Path), diverges a b = true →
    diverges (x ++ a) (x ++ b) = true := by
  intro x
  induction x with
  | nil => intro a b h; exact h
  | cons s x2 ih =>
    intro a b h
    simpa [diverges] using ih a b h

theorem walkEntries_of_findEntry (n : String) (pc : Path × String) :
    ∀ es u, findEntry es n = some u → pc ∈ walkTree u →
      (n :: pc.1, pc.2) ∈ walkEntries es := by
  intro es
  induction es with
  | nil => intro u h; cases h
  | cons e rest ih =>
    obtain ⟨k, t0⟩ := e
    intro u hf hm
    rw [walkEntries]
    by_cases hk : k = n
    · rw [findEntry, if_pos hk] at hf
      cases hf
      subst hk
      exact List.mem_append.mpr (Or.inl (List.mem_map.mpr ⟨pc, hm, rfl⟩))
    · rw [findEntry, if_neg hk] at hf
      exact List.mem_append.mpr (Or.inr (ih u hf hm))

theorem readFileAt_mem_walk (c : String) :
    ∀ (p : Path) (t : FTree), t.readFileAt p = some c → (p, c) ∈ walkTree t := by
  intro p
  induction p with
  | nil =>
    intro t h
    cases t with
    | file c0 =>
      simp only [FTree.readFileAt, FTree.readAt] at h
      cases h
      simp [walkTree]
    | dir es => simp [FTree.readFileAt, FTree.readAt] at h
  | cons n q ih =>
    intro t h
    cases t with
    | file c0 => simp [FTree.readFileAt, FTree.readAt] at h
    | dir es =>
      simp only [FTree.readFileAt, FTree.readAt] at h
      cases hf : findEntry es n with
      | none => rw [hf] at h; cases h
      | some u =>
        rw [hf] at h
        have hu : u.readFileAt q = some c := by
          rw [FTree.readFileAt]
          exact h
        have := ih u hu
        show (n :: q, c) ∈ walkEntries es
        exact walkEntries_of_findEntry n (q, c) es u hf this

theorem walk_removeDis_allowed (allowed : List Path) :
    ∀ (pre : Path) (es : List (String × FTree)) pc,
      pc ∈ walkEntries (removeDisEntries allowed pre es) → (pre ++ pc.1) ∈ allowed := by
  refine removeDisEntries.induct allowed
    (fun pre t => ∀ ds, t = FTree.dir ds →
      ∀ pc, pc ∈ walkEntries (removeDisEntries allowed pre ds) → (pre ++ pc.1) ∈ allowed)
    (fun pre es => ∀ pc,
      pc ∈ walkEntries (removeDisEntries allowed pre es) → (pre ++ pc.1) ∈ allowed)
    ?_ ?_ ?_ ?_ ?_ ?_
  · intro _ c ds h; cases h
  · intro pre ds ih ds2 heq
    cases heq
    exact ih
  · intro pre pc h
    rw [removeDisEntries] at h
    cases h
  · intro pre n es a hall ih pc hm
    rw [removeDisEntries, if_pos hall, walkEntries] at hm
    rcases List.mem_append.mp hm with hm | hm
    · rcases List.mem_map.mp hm with ⟨pc0, hpc0, rfl⟩
      rcases List.mem_singleton.mp (by simpa [walkTree] using hpc0) with rfl
      simpa using hall
    · exact ih pc hm
  · intro pre n es a hall ih pc hm
    rw [removeDisEntries, if_neg hall] at hm
    exact ih pc hm
  · intro pre n es a ih1 ih2 pc hm
    rw [removeDisEntries] at hm
    rw [walkEntries] at hm
    rcases List.mem_append.mp hm with hm | hm
    · rcases List.mem_map.mp hm with ⟨pc0, hpc0, rfl⟩
      have : pc0 ∈ walkEntries (removeDisEntries allowed (pre ++ [n]) a) := by
        simpa [removeDisTree, walkTree] using hpc0
      have := ih1 a rfl pc0 this
      simpa [List.append_assoc] using this
    · exact ih2 pc hm

theorem walk_prune_sub :
    ∀ (es : List (String × FTree)) pc,
      pc ∈ walkEntries (pruneEntries es) → pc ∈ walkEntries es := by
  refine pruneEntries.induct
    (fun t => ∀ t' pc, pruneTree t = some t' → pc ∈ walkTree t' → pc ∈ walkTree t)
    (fun es => ∀ pc, pc ∈ walkEntries (pruneEntries es) → pc ∈ walkEntries es)
    ?_ ?_ ?_ ?_ ?_ ?_
  · intro a t' pc h hm
    rw [pruneTree] at h
    cases h
    exact hm
  · intro a hempty ih t' pc h hm
    rw [pruneTree, hempty] at h
    cases h
  · intro a e es' hcons ih t' pc h hm
    rw [pruneTree, hcons] at h
    cases h
    show pc ∈ walkEntries a
    apply ih
    rw [hcons]
    exact hm
  · intro pc h
    rw [pruneEntries] at h
    cases h
  · intro n t es t1 hp ih1 ih2 pc hm
    rw [pruneEntries, hp, walkEntries] at hm
    rw [walkEntries]
    rcases List.mem_append.mp hm with hm | hm
    · rcases List.mem_map.mp hm with ⟨pc0, hpc0, rfl⟩
      exact List.mem_append.mpr (Or.inl (List.mem_map.mpr ⟨pc0, ih1 t1 pc0 hp hpc0, rfl⟩))
    · exact List.mem_append.mpr (Or.inr (ih2 pc hm))
  · intro n t es hp ih1 ih2 pc hm
    rw [pruneEntries, hp] at hm
    rw [walkEntries]
    exact List.mem_append.mpr (Or.inr (ih2 pc hm))

theorem noEmpty_prune :
    ∀ (es : List (String × FTree)), noEmptyEntries (pruneEntries es) = true := by
  refine pruneEntries.induct
    (fun t => ∀ t', pruneTree t = some t' → noEmptyTree t' = true)
    (fun es => noEmptyEntries (pruneEntries es) = true)
    ?_ ?_ ?_ ?_ ?_ ?_
  · intro a t' h
    rw [pruneTree] at h
    cases h
    rfl
  · intro a hempty ih t' h
    rw [pruneTree, hempty] at h
    cases h
  · intro a e es' hcons ih t' h
    rw [pruneTree, hcons] at h
    cases h
    show noEmptyTree (.dir (e :: es')) = true
    rw [noEmptyTree]
    simp only [Bool.and_eq_true]
    refine ⟨by simp, ?_⟩
    rw [← hcons]
    exact ih
  · rfl
  · intro n t es t1 hp ih1 ih2
    rw [pruneEntries, hp, noEmptyEntries]
    simp only [Bool.and_eq_true]
    exact ⟨ih1 t1 hp, ih2⟩
  · intro n t es hp ih1 ih2
    rw [pruneEntries, hp]
    exact ih2

theorem removeDisEntries_findEntry_file (allowed : List Path) (n : String) (c : String) :
    ∀ es pre, findEntry es n = some (.file c) → (pre ++ [n]) ∈ allowed →
      findEntry (removeDisEntries allowed pre es) n = some (.file c) := by
  intro es
  induction es with
  | nil => intro pre h; cases h
  | cons e rest ih =>
    obtain ⟨k, t0⟩ := e
    intro pre hf hall
    by_cases hk : k = n
    · rw [findEntry, if_pos hk] at hf
      cases hf
      subst hk
      rw [removeDisEntries, if_pos hall, findEntry, if_pos rfl]
    · rw [findEntry, if_neg hk] at hf
      cases t0 with
      | file c0 =>
        by_cases hall0 : (pre ++ [k]) ∈ allowed
        · rw [removeDisEntries, if_pos hall0, findEntry, if_neg hk]
          exact ih pre hf hall
        · rw [removeDisEntries, if_neg hall0]
          exact ih pre hf hall
      | dir ds =>
        rw [removeDisEntries, findEntry, if_neg hk]
        exact ih pre hf hall

theorem removeDisEntries_findEntry_dir (allowed : List Path) (n : String) :
    ∀ es pre ds, findEntry es n = some (.dir ds) →
      findEntry (removeDisEntries allowed pre es) n
        = some (.dir (removeDisEntries allowed (pre ++ [n]) ds)) := by
  intro es
  induction es with
  | nil => intro pre ds h; cases h
  | cons e rest ih =>
    obtain ⟨k, t0⟩ := e
    intro pre ds hf
    by_cases hk : k = n
    · rw [findEntry, if_pos hk] at hf
      cases hf
      subst hk
      rw [removeDisEntries, findEntry, if_pos rfl]
      rfl
    · rw [findEntry, if_neg hk] at hf
      cases t0 with
      | file c0 =>
        by_cases hall0 : (pre ++ [k]) ∈ allowed
        · rw [removeDisEntries, if_pos hall0, findEntry, if_neg hk]
          exact ih pre ds hf
        · rw [removeDisEntries, if_neg hall0]
          exact ih pre ds hf
      | dir ds0 =>
        rw [removeDisEntries, findEntry, if_neg hk]
        exact ih pre ds hf

theorem removeDis_readFileAt_some (allowed : List Path) (c : String) :
    ∀ (rel pre : Path) (es : List (String × FTree)),
      (FTree.dir es).readFileAt rel = some c → (pre ++ rel) ∈ allowed →
      (FTree.dir (removeDisEntries allowed pre es)).readFileAt rel = some c := by
  intro rel
  induction rel with
  | nil => intro pre es h _; simp [FTree.readFileAt, FTree.readAt] at h
  | cons n q ih =>
    intro pre es h hall
    simp only [FTree.readFileAt, FTree.readAt] at h
    cases hf : findEntry es n with
    | none => rw [hf] at h; cases h
    | some u =>
      rw [hf] at h
      cases u with
      | file cu =>
        cases q with
        | nil =>
          simp only [FTree.readAt] at h
          cases h
          have hall2 : (pre ++ [n]) ∈ allowed := by simpa using hall
          simp [FTree.readFileAt, FTree.readAt,
            removeDisEntries_findEntry_file allowed n c es pre hf hall2]
        | cons b q2 => simp [FTree.readAt] at h
      | dir ds =>
        have hd : (FTree.dir ds).readFileAt q = some c := by
          rw [FTree.readFileAt]
          exact h
        have hall2 : ((pre ++ [n]) ++ q) ∈ allowed := by
          simpa [List.append_assoc] using hall
        have := ih (pre ++ [n]) ds hd hall2
        simp only [FTree.readFileAt, FTree.readAt,
          removeDisEntries_findEntry_dir allowed n es pre ds hf]
        simpa [FTree.readFileAt] using this

theorem pruneEntries_findEntry (n : String) :
    ∀ es u u2, findEntry es n = some u → pruneTree u = some u2 →
      findEntry (pruneEntries es) n = some u2 := by
  intro es
  induction es with
  | nil => intro u u2 h; cases h
  | cons e rest ih =>
    obtain ⟨k, t0⟩ := e
    intro u u2 hf hp
    by_cases hk : k = n
    · rw [findEntry, if_pos hk] at hf
      cases hf
      rw [pruneEntries, hp, findEntry, if_pos hk]
    · rw [findEntry, if_neg hk] at hf
      rw [pruneEntries]
      cases pruneTree t0 with
      | some t1 =>
        rw [findEntry, if_neg hk]
        exact ih u u2 hf hp
      | none => exact ih u u2 hf hp

theorem prune_readFileAt_some (c : String) :
    ∀ (rel : Path) (t : FTree), t.readFileAt rel = some c →
      ∃ t2, pruneTree t = some t2 ∧ t2.readFileAt rel = some c := by
  intro rel
  induction rel with
  | nil =>
    intro t h
    cases t with
    | file c0 =>
      simp only [FTree.readFileAt, FTree.readAt] at h
      cases h
      exact ⟨.file c, rfl, rfl⟩
    | dir es => simp [FTree.readFileAt, FTree.readAt] at h
  | cons n q ih =>
    intro t h
    cases t with
    | file c0 => simp [FTree.readFileAt, FTree.readAt] at h
    | dir es =>
      simp only [FTree.readFileAt, FTree.readAt] at h
      cases hf : findEntry es n with
      | none => rw [hf] at h; cases h
      | some u =>
        rw [hf] at h
        have hu : u.readFileAt q = some c := by
          rw [FTree.readFileAt]; exact h
        obtain ⟨u2, hp, hu2⟩ := ih u hu
        have hfp : findEntry (pruneEntries es) n = some u2 :=
          pruneEntries_findEntry n es u u2 hf hp
        cases hpe : pruneEntries es with
        | nil => rw [hpe] at hfp; cases hfp
        | cons e es2 =>
          refine ⟨.dir (e :: es2), by rw [pruneTree, hpe], ?_⟩
          rw [← hpe]
          simp only [FTree.readFileAt, FTree.readAt, hfp]
          simpa [FTree.readFileAt] using hu2

theorem copyWalk_sub_walk (sp : Option (List String)) (ws : String) :
    ∀ (pre : Path) (es : List (String × FTree)) pc,
      pc ∈ copyWalkEntries sp ws pre es →
      ∃ q, pc.1 = pre ++ q ∧ (q, pc.2) ∈ walkEntries es := by
  refine copyWalkEntries.induct sp ws
    (fun pre t => ∀ pc, pc ∈ copyWalkTree sp ws pre t →
      ∃ q, pc.1 = pre ++ q ∧ (q, pc.2) ∈ walkTree t)
    (fun pre es => ∀ pc, pc ∈ copyWalkEntries sp ws pre es →
      ∃ q, pc.1 = pre ++ q ∧ (q, pc.2) ∈ walkEntries es)
    ?_ ?_ ?_ ?_ ?_
  · intro x c hsp pc hm
    rw [copyWalkTree, if_pos hsp] at hm
    rcases List.mem_singleton.mp hm with rfl
    exact ⟨[], by simp, by simp [walkTree]⟩
  · intro x c hsp pc hm
    rw [copyWalkTree, if_neg hsp] at hm
    cases hm
  · intro pre ds ih pc hm
    rw [copyWalkTree] at hm
    exact ih pc hm
  · intro x pc hm
    rw [copyWalkEntries] at hm
    cases hm
  · intro pre n t es ih1 ih2 pc hm
    rw [copyWalkEntries] at hm
    rcases List.mem_append.mp hm with hm | hm
    · obtain ⟨q, hq, hmem⟩ := ih1 pc hm
      refine ⟨n :: q, by simp [hq], ?_⟩
      rw [walkEntries]
      exact List.mem_append.mpr (Or.inl (List.mem_map.mpr ⟨(q, pc.2), hmem, rfl⟩))
    · obtain ⟨q, hq, hmem⟩ := ih2 pc hm
      refine ⟨q, hq, ?_⟩
      rw [walkEntries]
      exact List.mem_append.mpr (Or.inr hmem)

theorem copyToVault_readAt_preserved (fs : Fs) (cwd : Path) (q0 : Path) :
    ∀ (files : List VaultFile) (t : FTree),
      (∀ vf ∈ files,
        diverges (["vault", getWorkspaceName cwd] ++ vf.relativePath) q0 = true) →
      (copyToVault files t fs cwd).readAt q0 = t.readAt q0 := by
  intro files
  induction files with
  | nil => intro t _; rfl
  | cons vf rest ih =>
    intro t hdiv
    cases hc : fs.readFile vf.path with
    | none =>
      have hstep : copyToVault (vf :: rest) t fs cwd = copyToVault rest t fs cwd := by
        simp [copyToVault, hc]
      rw [hstep]
      exact ih t (fun vf2 h2 => hdiv vf2 (List.mem_cons_of_mem _ h2))
    | some c =>
      have hstep : copyToVault (vf :: rest) t fs cwd
          = copyToVault rest
              (t.writeAt (["vault", getWorkspaceName cwd] ++ vf.relativePath) c) fs cwd := by
        simp [copyToVault, hc]
      rw [hstep, ih _ (fun vf2 h2 => hdiv vf2 (List.mem_cons_of_mem _ h2))]
      exact writeAt_readAt_diverges c _ q0 (hdiv vf (List.mem_cons_self ..)) t

theorem copyToVault_presence (fs : Fs) (cwd : Path) :
    ∀ (files : List VaultFile) (t : FTree) (vf : VaultFile) (c : String),
      vf ∈ files →
      fs.readFile vf.path = some c →
      List.Pairwise (fun a b => diverges a.relativePath b.relativePath = true) files →
      (copyToVault files t fs cwd).readFileAt
        (["vault", getWorkspaceName cwd] ++ vf.relativePath) = some c := by
  intro files
  induction files with
  | nil => intro t vf c h; cases h
  | cons vf0 rest ih =>
    intro t vf c hmem hc hpw
    rcases List.pairwise_cons.mp hpw with ⟨hhead, hrest⟩
    rcases List.mem_cons.mp hmem with rfl | hmem2
    · have hstep : copyToVault (vf :: rest) t fs cwd
          = copyToVault rest
              (t.writeAt (["vault", getWorkspaceName cwd] ++ vf.relativePath) c) fs cwd := by
        simp [copyToVault, hc]
      rw [hstep]
      have hpres : (copyToVault rest
            (t.writeAt (["vault", getWorkspaceName cwd] ++ vf.relativePath) c) fs cwd).readAt
          (["vault", getWorkspaceName cwd] ++ vf.relativePath)
          = (t.writeAt (["vault", getWorkspaceName cwd] ++ vf.relativePath) c).readAt
              (["vault", getWorkspaceName cwd] ++ vf.relativePath) := by
        apply copyToVault_readAt_preserved
        intro vf2 h2
        exact diverges_append _ _ _ (by rw [diverges_comm]; exact hhead vf2 h2)
      rw [FTree.readFileAt, hpres, writeAt_readAt_same]
    · cases hc0 : fs.readFile vf0.path with
      | none =>
        have hstep : copyToVault (vf0 :: rest) t fs cwd = copyToVault rest t fs cwd := by
          simp [copyToVault, hc0]
        rw [hstep]
        exact ih t vf c hmem2 hc hrest
      | some c0 =>
        have hstep : copyToVault (vf0 :: rest) t fs cwd
            = copyToVault rest
                (t.writeAt (["vault", getWorkspaceName cwd] ++ vf0.relativePath) c0) fs cwd := by
          simp [copyToVault, hc0]
        rw [hstep]
        exact ih _ vf c hmem2 hc hrest


/-! ## Copy-then-prune (claim C3) -/

theorem readFileAt_append_some (t x : FTree) (p q : Path) (h : t.readAt p = some x) :
    t.readFileAt (p ++ q) = x.readFileAt q := by
  simp only [FTree.readFileAt, readAt_append p t q, h, Option.some_bind]

theorem readFileAt_append_none (t : FTree) (p q : Path) (h : t.readAt p = none) :
    t.readFileAt (p ++ q) = none := by
  simp only [FTree.readFileAt, readAt_append p t q, h, Option.none_bind]

theorem pruneTree_noEmpty (t x : FTree) (h : pruneTree t = some x) :
    noEmptyTree x = true := by
  cases t with
  | file c =>
    rw [pruneTree] at h
    cases h
    rfl
  | dir ds =>
    cases hpe : pruneEntries ds with
    | nil => rw [pruneTree, hpe] at h; cases h
    | cons e es2 =>
      rw [pruneTree, hpe] at h
      cases h
      rw [noEmptyTree]
      simp only [Bool.and_eq_true]
      refine ⟨by simp, ?_⟩
      rw [← hpe]
      exact noEmpty_prune ds

theorem pp_ne_append (pp rel : Path) (h : rel ≠ []) : pp ≠ pp ++ rel := by
  intro hc
  apply h
  have : pp ++ ([] : Path) = pp ++ rel := by simpa using hc
  exact (List.append_cancel_left this).symm

theorem copyToVault_readFileAt_pp (fs : Fs) (cwd : Path) :
    ∀ (files : List VaultFile) (t : FTree),
      (∀ vf ∈ files, vf.relativePath ≠ []) →
      t.readFileAt ["vault", getWorkspaceName cwd] = none →
      (copyToVault files t fs cwd).readFileAt ["vault", getWorkspaceName cwd] = none := by
  intro files
  induction files with
  | nil => intro t _ h; exact h
  | cons vf rest ih =>
    intro t hne h
    cases hc : fs.readFile vf.path with
    | none =>
      have hstep : copyToVault (vf :: rest) t fs cwd = copyToVault rest t fs cwd := by
        simp [copyToVault, hc]
      rw [hstep]
      exact ih t (fun v hv => hne v (List.mem_cons_of_mem _ hv)) h
    | some c =>
      have hstep : copyToVault (vf :: rest) t fs cwd
          = copyToVault rest
              (t.writeAt (["vault", getWorkspaceName cwd] ++ vf.relativePath) c) fs cwd := by
        simp [copyToVault, hc]
      rw [hstep]
      apply ih _ (fun v hv => hne v (List.mem_cons_of_mem _ hv))
      obtain ⟨es1, h1⟩ := writeAt_readAt_strict_prefix c ["vault", getWorkspaceName cwd]
        (["vault", getWorkspaceName cwd] ++ vf.relativePath) t
        (underDir_append_self _ _)
        (pp_ne_append _ _ (hne vf (List.mem_cons_self ..)))
      exact readFileAt_of_readAt_dir h1

/-- C3: after the copy-in phase of `storeToVault` (`copyToVault` then
`removeExcludedFromVault` with the collected relative paths as the allowed
set): a file whose relative path is not in the collected set is absent from
the workspace partition; the partition (when still present) contains no empty
directory; every collected readable file is present with its project content;
and the walk of a subsequent pull writes only collected paths, so an excluded
file is not retrieved. -/
theorem storePhase_prune_spec (files : List VaultFile) (fs : Fs) (cwd : Path) (t : FTree)
    (hwf : wfTree t = true)
    (hrelne : ∀ vf ∈ files, vf.relativePath ≠ [])
    (hpfile : t.readFileAt ["vault", getWorkspaceName cwd] = none)
    (hpw : List.Pairwise (fun a b => diverges a.relativePath b.relativePath = true) files) :
    (∀ rel, rel ∉ files.map (fun f => f.relativePath) →
      (storePhase files fs cwd t).readFileAt (["vault", getWorkspaceName cwd] ++ rel)
        = none) ∧
    (∀ x, (storePhase files fs cwd t).readAt ["vault", getWorkspaceName cwd] = some x →
      noEmptyTree x = true) ∧
    (∀ vf ∈ files, ∀ c, fs.readFile vf.path = some c →
      (storePhase files fs cwd t).readFileAt
        (["vault", getWorkspaceName cwd] ++ vf.relativePath) = some c) ∧
    (∀ sp es2 pc,
      (storePhase files fs cwd t).readAt ["vault", getWorkspaceName cwd]
          = some (.dir es2) →
      pc ∈ copyWalkEntries sp (getWorkspaceName cwd) [] es2 →
      pc.1 ∈ files.map (fun f => f.relativePath)) := by
  have hwfT0 : wfTree (copyToVault files t fs cwd) = true := wf_copyToVault fs cwd files t hwf
  have hT0pp : (copyToVault files t fs cwd).readFileAt ["vault", getWorkspaceName cwd]
      = none := copyToVault_readFileAt_pp fs cwd files t hrelne hpfile
  have hT1def : storePhase files fs cwd t
      = match (copyToVault files t fs cwd).readAt ["vault", getWorkspaceName cwd] with
        | some (.dir es) => (copyToVault files t fs cwd).setAtO
            ["vault", getWorkspaceName cwd]
            (pruneTree (.dir (removeDisEntries (files.map (fun f => f.relativePath)) [] es)))
        | some (.file _) => copyToVault files t fs cwd
        | none => copyToVault files t fs cwd := rfl
  -- the presence chain inside the partition, shared by two sub-cases below
  have hpresence : ∀ vf ∈ files, ∀ c, fs.readFile vf.path = some c →
      (copyToVault files t fs cwd).readFileAt
        (["vault", getWorkspaceName cwd] ++ vf.relativePath) = some c :=
    fun vf hvf c hc => copyToVault_presence fs cwd files t vf c hvf hc hpw
  cases hread : (copyToVault files t fs cwd).readAt ["vault", getWorkspaceName cwd] with
  | none =>
    have hT1eq : storePhase files fs cwd t = copyToVault files t fs cwd := by
      rw [hT1def, hread]
    rw [hT1eq]
    refine ⟨?_, ?_, ?_, ?_⟩
    · intro rel _
      exact readFileAt_append_none _ _ rel hread
    · intro x hx
      rw [hread] at hx
      cases hx
    · intro vf hvf c hc
      have h1 := hpresence vf hvf c hc
      rw [readFileAt_append_none _ _ vf.relativePath hread] at h1
      cases h1
    · intro sp es2 pc hx
      rw [hread] at hx
      cases hx
  | some x =>
    cases x with
    | file cf =>
      have : (copyToVault files t fs cwd).readFileAt ["vault", getWorkspaceName cwd]
          = some cf := by
        rw [FTree.readFileAt, hread]
      rw [hT0pp] at this
      cases this
    | dir es1 =>
      have hT1eq : storePhase files fs cwd t
          = (copyToVault files t fs cwd).setAtO ["vault", getWorkspaceName cwd]
              (pruneTree (.dir (removeDisEntries
                (files.map (fun f => f.relativePath)) [] es1))) := by
        rw [hT1def, hread]
      rw [hT1eq]
      cases hpe : pruneEntries
          (removeDisEntries (files.map (fun f => f.relativePath)) [] es1) with
      | nil =>
        have hprune : pruneTree
            (.dir (removeDisEntries (files.map (fun f => f.relativePath)) [] es1))
            = none := by
          rw [pruneTree, hpe]
        rw [hprune]
        have hT1read : ((copyToVault files t fs cwd).setAtO
            ["vault", getWorkspaceName cwd] none).readAt ["vault", getWorkspaceName cwd]
            = none :=
          setAtO_none_readAt ["vault", getWorkspaceName cwd] _ (by simp) hwfT0
        refine ⟨?_, ?_, ?_, ?_⟩
        · intro rel _
          exact readFileAt_append_none _ _ rel hT1read
        · intro x hx
          rw [hT1read] at hx
          cases hx
        · intro vf hvf c hc
          have h1 := hpresence vf hvf c hc
          rw [readFileAt_append_some _ (.dir es1) _ vf.relativePath hread] at h1
          have h2 := removeDis_readFileAt_some (files.map (fun f => f.relativePath)) c
            vf.relativePath [] es1 h1
            (by simpa using List.mem_map_of_mem (fun f => f.relativePath) hvf)
          obtain ⟨t2, hp2, _⟩ := prune_readFileAt_some c vf.relativePath _ h2
          rw [hprune] at hp2
          cases hp2
        · intro sp es2 pc hx
          rw [hT1read] at hx
          cases hx
      | cons e es2' =>
        have hprune : pruneTree
            (.dir (removeDisEntries (files.map (fun f => f.relativePath)) [] es1))
            = some (.dir (e :: es2')) := by
          rw [pruneTree, hpe]
        rw [hprune]
        have hT1read : ((copyToVault files t fs cwd).setAtO
            ["vault", getWorkspaceName cwd] (some (.dir (e :: es2')))).readAt
            ["vault", getWorkspaceName cwd] = some (.dir (e :: es2')) :=
          setAtO_readAt_some _ _ _ (.dir es1) (by simp) hread
        refine ⟨?_, ?_, ?_, ?_⟩
        · intro rel hrel
          rw [readFileAt_append_some _ (.dir (e :: es2')) _ rel hT1read]
          cases hcc : (FTree.dir (e :: es2')).readFileAt rel with
          | none => rfl
          | some c =>
            exfalso
            have hmem := readFileAt_mem_walk c rel _ hcc
            have hmem2 : (rel, c) ∈ walkEntries
                (pruneEntries (removeDisEntries
                  (files.map (fun f => f.relativePath)) [] es1)) := by
              rw [hpe]
              simpa [walkTree] using hmem
            have hmem3 := walk_prune_sub _ _ hmem2
            have := walk_removeDis_allowed (files.map (fun f => f.relativePath)) [] es1
              (rel, c) hmem3
            simp only [List.nil_append] at this
            exact hrel this
        · intro x hx
          rw [hT1read] at hx
          cases hx
          exact pruneTree_noEmpty _ _ hprune
        · intro vf hvf c hc
          have h1 := hpresence vf hvf c hc
          rw [readFileAt_append_some _ (.dir es1) _ vf.relativePath hread] at h1
          have h2 := removeDis_readFileAt_some (files.map (fun f => f.relativePath)) c
            vf.relativePath [] es1 h1
            (by simpa using List.mem_map_of_mem (fun f => f.relativePath) hvf)
          obtain ⟨t2, hp2, ht2⟩ := prune_readFileAt_some c vf.relativePath _ h2
          rw [hprune] at hp2
          cases hp2
          rw [readFileAt_append_some _ (.dir (e :: es2')) _ vf.relativePath hT1read]
          exact ht2
        · intro sp es2 pc hx hpc
          rw [hT1read] at hx
          cases hx
          obtain ⟨q, hq, hmem⟩ := copyWalk_sub_walk sp (getWorkspaceName cwd) [] _ pc hpc
          have hmem2 : (q, pc.2) ∈ walkEntries
              (pruneEntries (removeDisEntries
                (files.map (fun f => f.relativePath)) [] es1)) := by
            rw [hpe]
            exact hmem
          have hmem3 := walk_prune_sub _ _ hmem2
          have := walk_removeDis_allowed (files.map (fun f => f.relativePath)) [] es1
            (q, pc.2) hmem3
          simp only [List.nil_append] at this
          rw [hq]
          simpa using this

theorem storePhase_prune_spec_witness :
    (storePhase [⟨["p", "a.md"], ["a.md"]⟩]
        ⟨[(["p", "a.md"], "hello")], []⟩ ["p"]
        (.dir [("vault", .dir [("p", .dir [("old.md", .file "stale"),
          ("sub", .dir [("x.md", .file "y")])])])])).readFileAt
      ["vault", "p", "old.md"] = none ∧
    (storePhase [⟨["p", "a.md"], ["a.md"]⟩]
        ⟨[(["p", "a.md"], "hello")], []⟩ ["p"]
        (.dir [("vault", .dir [("p", .dir [("old.md", .file "stale"),
          ("sub", .dir [("x.md", .file "y")])])])])).readFileAt
      ["vault", "p", "a.md"] = some "hello" := by
  have h := storePhase_prune_spec [⟨["p", "a.md"], ["a.md"]⟩]
    ⟨[(["p", "a.md"], "hello")], []⟩ ["p"]
    (.dir [("vault", .dir [("p", .dir [("old.md", .file "stale"),
      ("sub", .dir [("x.md", .file "y")])])])])
    (by decide) (by decide) rfl (by decide)
  exact ⟨h.1 ["old.md"] (by decide), h.2.2.1 ⟨["p", "a.md"], ["a.md"]⟩ (by decide) "hello" rfl⟩


/-! ## Identity lemmas and store idempotence (claim C4) -/

theorem beq_refl_tree : ∀ t : FTree, FTree.beq t t = true := by
  refine walkTree.induct (fun t => FTree.beq t t = true)
    (fun es => beqEntries es es = true) ?_ ?_ ?_ ?_
  · intro a; simp [FTree.beq]
  · intro a ih
    simpa [FTree.beq] using ih
  · rfl
  · intro n t es ih1 ih2
    simp [beqEntries, ih1, ih2]

theorem setAtO_self : ∀ (p : Path) (t x : FTree), t.readAt p = some x →
    t.setAtO p (some x) = t := by
  intro p
  induction p with
  | nil => intro t x _; cases t <;> rfl
  | cons n q ih =>
    intro t x hr
    cases t with
    | file c0 => rfl
    | dir es =>
      simp only [FTree.readAt] at hr
      cases hf : findEntry es n with
      | none => rw [hf] at hr; cases hr
      | some u =>
        rw [hf] at hr
        cases q with
        | nil =>
          simp only [FTree.readAt] at hr
          cases hr
          show FTree.dir (replaceFirst es n x) = FTree.dir es
          rw [replaceFirst_self n es x hf]
        | cons b q2 =>
          simp only [FTree.setAtO, hf]
          rw [ih u x hr, replaceFirst_self n es u hf]

theorem copyToVault_id (fs : Fs) (cwd : Path) :
    ∀ (files : List VaultFile) (T : FTree),
      (∀ vf ∈ files, ∀ c, fs.readFile vf.path = some c →
        T.readFileAt (["vault", getWorkspaceName cwd] ++ vf.relativePath) = some c) →
      copyToVault files T fs cwd = T := by
  intro files
  induction files with
  | nil => intro T _; rfl
  | cons vf rest ih =>
    intro T hpres
    cases hc : fs.readFile vf.path with
    | none =>
      have hstep : copyToVault (vf :: rest) T fs cwd = copyToVault rest T fs cwd := by
        simp [copyToVault, hc]
      rw [hstep]
      exact ih T (fun v hv => hpres v (List.mem_cons_of_mem _ hv))
    | some c =>
      have hstep : copyToVault (vf :: rest) T fs cwd
          = copyToVault rest
              (T.writeAt (["vault", getWorkspaceName cwd] ++ vf.relativePath) c) fs cwd := by
        simp [copyToVault, hc]
      rw [hstep, writeAt_self_eq c _ T (hpres vf (List.mem_cons_self ..) c hc)]
      exact ih T (fun v hv => hpres v (List.mem_cons_of_mem _ hv))

theorem removeDis_id (allowed : List Path) :
    ∀ (pre : Path) (es : List (String × FTree)),
      (∀ pc ∈ walkEntries es, (pre ++ pc.1) ∈ allowed) →
      removeDisEntries allowed pre es = es := by
  refine removeDisEntries.induct allowed
    (fun pre t => ∀ ds, t = FTree.dir ds →
      (∀ pc ∈ walkEntries ds, (pre ++ pc.1) ∈ allowed) →
      removeDisEntries allowed pre ds = ds)
    (fun pre es => (∀ pc ∈ walkEntries es, (pre ++ pc.1) ∈ allowed) →
      removeDisEntries allowed pre es = es)
    ?_ ?_ ?_ ?_ ?_ ?_
  · intro _ c ds h; cases h
  · intro pre ds ih ds2 heq
    cases heq
    exact ih
  · intro pre _; rfl
  · intro pre n es a hall ih hw
    rw [removeDisEntries, if_pos hall]
    rw [ih (fun pc hpc => hw pc (by
      rw [walkEntries]
      exact List.mem_append.mpr (Or.inr hpc)))]
  · intro pre n es a hall ih hw
    exfalso
    apply hall
    have : (([n], a) : Path × String) ∈ walkEntries ((n, FTree.file a) :: es) := by
      rw [walkEntries]
      exact List.mem_append.mpr (Or.inl (by simp [walkTree]))
    simpa using hw ([n], a) this
  · intro pre n es a ih1 ih2 hw
    rw [removeDisEntries]
    have hsub : removeDisEntries allowed (pre ++ [n]) a = a := by
      apply ih1 a rfl
      intro pc hpc
      have : ((n :: pc.1, pc.2) : Path × String) ∈ walkEntries ((n, FTree.dir a) :: es) := by
        rw [walkEntries]
        exact List.mem_append.mpr (Or.inl (List.mem_map.mpr ⟨pc, hpc, rfl⟩))
      have := hw _ this
      simpa [List.append_assoc] using this
    have htl : removeDisEntries allowed pre es = es := by
      apply ih2
      intro pc hpc
      apply hw
      rw [walkEntries]
      exact List.mem_append.mpr (Or.inr hpc)
    rw [show removeDisTree allowed (pre ++ [n]) (FTree.dir a)
        = FTree.dir (removeDisEntries allowed (pre ++ [n]) a) from rfl, hsub, htl]

theorem prune_id :
    ∀ (es : List (String × FTree)), noEmptyEntries es = true → pruneEntries es = es := by
  refine pruneEntries.induct
    (fun t => noEmptyTree t = true → pruneTree t = some t)
    (fun es => noEmptyEntries es = true → pruneEntries es = es)
    ?_ ?_ ?_ ?_ ?_ ?_
  · intro a _; rfl
  · intro a hempty ih hne
    exfalso
    rw [noEmptyTree] at hne
    simp only [Bool.and_eq_true] at hne
    have := ih hne.2
    rw [this] at hempty
    subst hempty
    simp at hne
  · intro a e es' hcons ih hne
    rw [noEmptyTree] at hne
    simp only [Bool.and_eq_true] at hne
    rw [pruneTree, hcons, ← ih hne.2, hcons]
  · intro _; rfl
  · intro n t es t1 hp ih1 ih2 hne
    rw [noEmptyEntries] at hne
    simp only [Bool.and_eq_true] at hne
    rw [pruneEntries, hp]
    have := ih1 hne.1
    rw [hp] at this
    cases this
    rw [ih2 hne.2]
  · intro n t es hp ih1 ih2 hne
    rw [noEmptyEntries] at hne
    simp only [Bool.and_eq_true] at hne
    have := ih1 hne.1
    rw [hp] at this
    cases this

theorem pruneTree_id (t : FTree) (h : noEmptyTree t = true) : pruneTree t = some t := by
  cases t with
  | file c => rfl
  | dir es =>
    rw [noEmptyTree] at h
    simp only [Bool.and_eq_true] at h
    rw [pruneTree, prune_id es h.2]
    cases es with
    | nil => simp at h
    | cons e es2 => rfl

theorem removeExcludedFromVault_id (T : FTree) (cwd : Path) (allowed : List Path)
    (hcase : T.readAt ["vault", getWorkspaceName cwd] = none ∨
      ∃ es2, T.readAt ["vault", getWorkspaceName cwd] = some (.dir es2) ∧
        noEmptyTree (.dir es2) = true ∧
        ∀ pc ∈ walkEntries es2, pc.1 ∈ allowed) :
    removeExcludedFromVault T cwd allowed = T := by
  have hunfold : removeExcludedFromVault T cwd allowed
      = match T.readAt ["vault", getWorkspaceName cwd] with
        | some (.dir es) => T.setAtO ["vault", getWorkspaceName cwd]
            (pruneTree (.dir (removeDisEntries allowed [] es)))
        | some (.file _) => T
        | none => T := rfl
  rcases hcase with hnone | ⟨es2, hsome, hne, hsub⟩
  · rw [hunfold, hnone]
  · have h1 : removeDisEntries allowed [] es2 = es2 := by
      apply removeDis_id allowed [] es2
      intro pc hpc
      simpa using hsub pc hpc
    have heq : removeExcludedFromVault T cwd allowed
        = T.setAtO ["vault", getWorkspaceName cwd]
            (pruneTree (.dir (removeDisEntries allowed [] es2))) := by
      rw [hunfold, hsome]
    rw [heq, h1, pruneTree_id _ hne]
    exact setAtO_self _ T _ hsome

/-- Characterization of the tree produced by the copy-in phase, for reuse:
it is well formed, its workspace partition is gone or a nonempty directory
whose files are exactly allowed ones, the partition is never a regular file,
and every collected readable file is present. -/
theorem storePhase_char (files : List VaultFile) (fs : Fs) (cwd : Path) (t : FTree)
    (hwf : wfTree t = true)
    (hrelne : ∀ vf ∈ files, vf.relativePath ≠ [])
    (hpfile : t.readFileAt ["vault", getWorkspaceName cwd] = none)
    (hpw : List.Pairwise (fun a b => diverges a.relativePath b.relativePath = true) files) :
    wfTree (storePhase files fs cwd t) = true ∧
    ((storePhase files fs cwd t).readAt ["vault", getWorkspaceName cwd] = none ∨
      ∃ es2, (storePhase files fs cwd t).readAt ["vault", getWorkspaceName cwd]
          = some (.dir es2) ∧
        noEmptyTree (.dir es2) = true ∧
        ∀ pc ∈ walkEntries es2, pc.1 ∈ files.map (fun f => f.relativePath)) ∧
    (storePhase files fs cwd t).readFileAt ["vault", getWorkspaceName cwd] = none ∧
    (∀ vf ∈ files, ∀ c, fs.readFile vf.path = some c →
      (storePhase files fs cwd t).readFileAt
        (["vault", getWorkspaceName cwd] ++ vf.relativePath) = some c) := by
  have hwfT0 : wfTree (copyToVault files t fs cwd) = true := wf_copyToVault fs cwd files t hwf
  have hwfT1 : wfTree (storePhase files fs cwd t) = true :=
    wf_removeExcludedFromVault _ cwd _ hwfT0
  have hT0pp : (copyToVault files t fs cwd).readFileAt ["vault", getWorkspaceName cwd]
      = none := copyToVault_readFileAt_pp fs cwd files t hrelne hpfile
  have hT1def : storePhase files fs cwd t
      = match (copyToVault files t fs cwd).readAt ["vault", getWorkspaceName cwd] with
        | some (.dir es) => (copyToVault files t fs cwd).setAtO
            ["vault", getWorkspaceName cwd]
            (pruneTree (.dir (removeDisEntries (files.map (fun f => f.relativePath)) [] es)))
        | some (.file _) => copyToVault files t fs cwd
        | none => copyToVault files t fs cwd := rfl
  have hpresence : ∀ vf ∈ files, ∀ c, fs.readFile vf.path = some c →
      (copyToVault files t fs cwd).readFileAt
        (["vault", getWorkspaceName cwd] ++ vf.relativePath) = some c :=
    fun vf hvf c hc => copyToVault_presence fs cwd files t vf c hvf hc hpw
  cases hread : (copyToVault files t fs cwd).readAt ["vault", getWorkspaceName cwd] with
  | none =>
    have hT1eq : storePhase files fs cwd t = copyToVault files t fs cwd := by
      rw [hT1def, hread]
    rw [hT1eq]
    refine ⟨hwfT0, Or.inl hread, hT0pp, ?_⟩
    intro vf hvf c hc
    exact hpresence vf hvf c hc
  | some x =>
    cases x with
    | file cf =>
      exfalso
      have : (copyToVault files t fs cwd).readFileAt ["vault", getWorkspaceName cwd]
          = some cf := by
        rw [FTree.readFileAt, hread]
      rw [hT0pp] at this
      cases this
    | dir es1 =>
      have hT1eq : storePhase files fs cwd t
          = (copyToVault files t fs cwd).setAtO ["vault", getWorkspaceName cwd]
              (pruneTree (.dir (removeDisEntries
                (files.map (fun f => f.relativePath)) [] es1))) := by
        rw [hT1def, hread]
      cases hpe : pruneEntries
          (removeDisEntries (files.map (fun f => f.relativePath)) [] es1) with
      | nil =>
        have hprune : pruneTree
            (.dir (removeDisEntries (files.map (fun f => f.relativePath)) [] es1))
            = none := by
          rw [pruneTree, hpe]
        rw [hT1eq, hprune]
        have hT1read : ((copyToVault files t fs cwd).setAtO
            ["vault", getWorkspaceName cwd] none).readAt ["vault", getWorkspaceName cwd]
            = none :=
          setAtO_none_readAt ["vault", getWorkspaceName cwd] _ (by simp) hwfT0
        refine ⟨by rw [hT1eq, hprune] at hwfT1; exact hwfT1, Or.inl hT1read,
          readFileAt_of_readAt_none hT1read, ?_⟩
        intro vf hvf c hc
        exfalso
        have h1 := hpresence vf hvf c hc
        rw [readFileAt_append_some _ (.dir es1) _ vf.relativePath hread] at h1
        have h2 := removeDis_readFileAt_some (files.map (fun f => f.relativePath)) c
          vf.relativePath [] es1 h1
          (by simpa using List.mem_map_of_mem (fun f => f.relativePath) hvf)
        obtain ⟨t2, hp2, _⟩ := prune_readFileAt_some c vf.relativePath _ h2
        rw [hprune] at hp2
        cases hp2
      | cons e es2' =>
        have hprune : pruneTree
            (.dir (removeDisEntries (files.map (fun f => f.relativePath)) [] es1))
            = some (.dir (e :: es2')) := by
          rw [pruneTree, hpe]
        rw [hT1eq, hprune]
        have hT1read : ((copyToVault files t fs cwd).setAtO
            ["vault", getWorkspaceName cwd] (some (.dir (e :: es2')))).readAt
            ["vault", getWorkspaceName cwd] = some (.dir (e :: es2')) :=
          setAtO_readAt_some _ _ _ (.dir es1) (by simp) hread
        refine ⟨by rw [hT1eq, hprune] at hwfT1; exact hwfT1,
          Or.inr ⟨e :: es2', hT1read, pruneTree_noEmpty _ _ hprune, ?_⟩,
          readFileAt_of_readAt_dir hT1read, ?_⟩
        · intro pc hpc
          have hmem2 : pc ∈ walkEntries
              (pruneEntries (removeDisEntries
                (files.map (fun f => f.relativePath)) [] es1)) := by
            rw [hpe]
            exact hpc
          have hmem3 := walk_prune_sub _ _ hmem2
          have := walk_removeDis_allowed (files.map (fun f => f.relativePath)) [] es1
            pc hmem3
          simpa using this
        · intro vf hvf c hc
          have h1 := hpresence vf hvf c hc
          rw [readFileAt_append_some _ (.dir es1) _ vf.relativePath hread] at h1
          have h2 := removeDis_readFileAt_some (files.map (fun f => f.relativePath)) c
            vf.relativePath [] es1 h1
            (by simpa using List.mem_map_of_mem (fun f => f.relativePath) hvf)
          obtain ⟨t2, hp2, ht2⟩ := prune_readFileAt_some c vf.relativePath _ h2
          rw [hprune] at hp2
          cases hp2
          rw [readFileAt_append_some _ (.dir (e :: es2')) _ vf.relativePath hT1read]
          exact ht2

theorem storePhase_idem (files : List VaultFile) (fs : Fs) (cwd : Path) (t : FTree)
    (hwf : wfTree t = true)
    (hrelne : ∀ vf ∈ files, vf.relativePath ≠ [])
    (hpfile : t.readFileAt ["vault", getWorkspaceName cwd] = none)
    (hpw : List.Pairwise (fun a b => diverges a.relativePath b.relativePath = true) files) :
    storePhase files fs cwd (storePhase files fs cwd t) = storePhase files fs cwd t := by
  obtain ⟨hwf1, hcase, hpf1, hpres1⟩ := storePhase_char files fs cwd t hwf hrelne hpfile hpw
  have hcopy : copyToVault files (storePhase files fs cwd t) fs cwd
      = storePhase files fs cwd t := by
    apply copyToVault_id
    intro vf hvf c hc
    exact hpres1 vf hvf c hc
  show removeExcludedFromVault
      (copyToVault files (storePhase files fs cwd t) fs cwd) cwd
      (files.map (fun f => f.relativePath)) = storePhase files fs cwd t
  rw [hcopy]
  exact removeExcludedFromVault_id _ cwd _ hcase

/-- C4: running `storeToVault` twice in succession with no intervening change
to the project's files or config makes the second run detect no working-tree
changes, commit zero times, and return the same file count as the first. -/
theorem store_idempotent (files : List VaultFile) (fs : Fs) (cwd : Path) (remote : FTree)
    (hwf : wfTree remote = true)
    (hrelne : ∀ vf ∈ files, vf.relativePath ≠ [])
    (hpfile : remote.readFileAt ["vault", getWorkspaceName cwd] = none)
    (hpw : List.Pairwise (fun a b => diverges a.relativePath b.relativePath = true) files) :
    (storeToVaultModel files fs cwd
        (storeToVaultModel files fs cwd remote).remote).hasChanges = false ∧
    (storeToVaultModel files fs cwd
        (storeToVaultModel files fs cwd remote).remote).commits = 0 ∧
    (storeToVaultModel files fs cwd
        (storeToVaultModel files fs cwd remote).remote).count
      = (storeToVaultModel files fs cwd remote).count := by
  by_cases hbeq : FTree.beq (storePhase files fs cwd remote) remote = true
  · have hr1 : storeToVaultModel files fs cwd remote
        = ⟨files.length, false, 0, remote⟩ := by
      simp [storeToVaultModel, hbeq]
    rw [hr1]
    simp [storeToVaultModel, hbeq]
  · have hr1 : storeToVaultModel files fs cwd remote
        = ⟨files.length, true, 1, storePhase files fs cwd remote⟩ := by
      simp [storeToVaultModel, hbeq]
    rw [hr1]
    have hbeq2 : FTree.beq
        (storePhase files fs cwd (storePhase files fs cwd remote))
        (storePhase files fs cwd remote) = true := by
      rw [storePhase_idem files fs cwd remote hwf hrelne hpfile hpw]
      exact beq_refl_tree _
    simp [storeToVaultModel, hbeq2]

theorem store_idempotent_witness :
    (storeToVaultModel [⟨["p", "a.md"], ["a.md"]⟩] ⟨[(["p", "a.md"], "hello")], []⟩ ["p"]
        (storeToVaultModel [⟨["p", "a.md"], ["a.md"]⟩] ⟨[(["p", "a.md"], "hello")], []⟩ ["p"]
          (.dir [("vault", .dir [(".gitkeep", .file "")])])).remote).hasChanges = false ∧
    (storeToVaultModel [⟨["p", "a.md"], ["a.md"]⟩] ⟨[(["p", "a.md"], "hello")], []⟩ ["p"]
        (storeToVaultModel [⟨["p", "a.md"], ["a.md"]⟩] ⟨[(["p", "a.md"], "hello")], []⟩ ["p"]
          (.dir [("vault", .dir [(".gitkeep", .file "")])])).remote).count
      = (storeToVaultModel [⟨["p", "a.md"], ["a.md"]⟩] ⟨[(["p", "a.md"], "hello")], []⟩ ["p"]
          (.dir [("vault", .dir [(".gitkeep", .file "")])])).count := by
  have h := store_idempotent [⟨["p", "a.md"], ["a.md"]⟩] ⟨[(["p", "a.md"], "hello")], []⟩
    ["p"] (.dir [("vault", .dir [(".gitkeep", .file "")])])
    (by decide) (by decide) rfl (by decide)
  exact ⟨h.1, h.2.2⟩


/-! ## Round-trip (claim C5) -/

theorem beq_eq_tree : ∀ t t2 : FTree, FTree.beq t t2 = true → t = t2 := by
  refine walkTree.induct (fun t => ∀ t2, FTree.beq t t2 = true → t = t2)
    (fun es => ∀ es2, beqEntries es es2 = true → es = es2) ?_ ?_ ?_ ?_
  · intro a t2 h
    cases t2 with
    | file b =>
      simp only [FTree.beq, decide_eq_true_eq] at h
      rw [h]
    | dir bs => simp [FTree.beq] at h
  · intro a ih t2 h
    cases t2 with
    | file b => simp [FTree.beq] at h
    | dir bs =>
      rw [show FTree.beq (.dir a) (.dir bs) = beqEntries a bs from rfl] at h
      rw [ih bs h]
  · intro es2 h
    cases es2 with
    | nil => rfl
    | cons e2 ms => simp [beqEntries] at h
  · intro n t es ih1 ih2 es2 h
    cases es2 with
    | nil => simp [beqEntries] at h
    | cons e2 ms =>
      obtain ⟨m, s⟩ := e2
      rw [show beqEntries ((n, t) :: es) ((m, s) :: ms)
          = (decide (n = m) && FTree.beq t s && beqEntries es ms) from rfl] at h
      simp only [Bool.and_eq_true, decide_eq_true_eq] at h
      rw [h.1.1, ih1 s h.1.2, ih2 ms h.2]

theorem findEntry_none_iff (n : String) :
    ∀ es, findEntry es n = none ↔ n ∉ es.map Prod.fst := by
  intro es
  induction es with
  | nil => simp [findEntry]
  | cons e rest ih =>
    obtain ⟨k, t0⟩ := e
    by_cases hk : k = n
    · simp [findEntry, hk]
    · have hfe : findEntry ((k, t0) :: rest) n = findEntry rest n := by
        simp [findEntry, hk]
      rw [hfe, ih]
      simp only [List.map_cons]
      constructor
      · intro h hmem
        rcases List.mem_cons.mp hmem with h2 | h2
        · exact hk h2.symm
        · exact h h2
      · intro h hmem
        exact h (List.mem_cons_of_mem _ hmem)

theorem walk_head_mem :
    ∀ (es : List (String × FTree)) pc, pc ∈ walkEntries es →
      ∃ k q, pc.1 = k :: q ∧ k ∈ es.map Prod.fst := by
  intro es
  induction es with
  | nil => intro pc h; rw [walkEntries] at h; cases h
  | cons e rest ih =>
    obtain ⟨n, t0⟩ := e
    intro pc h
    rw [walkEntries] at h
    rcases List.mem_append.mp h with h | h
    · rcases List.mem_map.mp h with ⟨pc0, _, rfl⟩
      exact ⟨n, pc0.1, rfl, by simp⟩
    · obtain ⟨k, q, hq, hmem⟩ := ih pc h
      exact ⟨k, q, hq, by simp [hmem]⟩

theorem wf_walk_nodup :
    ∀ (es : List (String × FTree)), wfEntries es = true →
      ((walkEntries es).map Prod.fst).Nodup := by
  refine walkEntries.induct
    (fun t => wfTree t = true → ((walkTree t).map Prod.fst).Nodup)
    (fun es => wfEntries es = true → ((walkEntries es).map Prod.fst).Nodup) ?_ ?_ ?_ ?_
  · intro a _
    simp [walkTree]
  · intro a ih h
    rw [show walkTree (.dir a) = walkEntries a from rfl]
    exact ih (by simpa [wfTree] using h)
  · intro _
    simp [walkEntries]
  · intro n t es ih1 ih2 hwf
    rw [wfEntries_cons] at hwf
    simp only [Bool.and_eq_true] at hwf
    rw [walkEntries, List.map_append]
    apply List.Nodup.append
    · have hcomp : ((walkTree t).map
          (fun pc : Path × String => ((n :: pc.1 : Path), pc.2))).map Prod.fst
          = ((walkTree t).map Prod.fst).map (fun q => n :: q) := by
        simp [List.map_map]
      rw [hcomp]
      have hinj : ∀ a b : Path, n :: a = n :: b → a = b := by
        intro a b h
        injection h
      exact (ih1 hwf.1.2).map (fun a b h => hinj a b h)
    · exact ih2 hwf.2
    · intro p hp hp2
      rcases List.mem_map.mp hp with ⟨pc1, hpc1, rfl⟩
      rcases List.mem_map.mp hpc1 with ⟨pc0, _, rfl⟩
      rcases List.mem_map.mp hp2 with ⟨pc2, hpc2, heq⟩
      obtain ⟨k, q, hq, hkmem⟩ := walk_head_mem es pc2 hpc2
      rw [heq] at hq
      injection hq with hk1 hk2
      rw [← hk1] at hkmem
      exact (findEntry_none_iff n es).mp (Option.isNone_iff_eq_none.mp hwf.1.1) hkmem

theorem copyWalk_none_eq (ws : String) :
    ∀ (pre : Path) (es : List (String × FTree)),
      copyWalkEntries none ws pre es
        = (walkEntries es).map (fun pc => (pre ++ pc.1, pc.2)) := by
  refine copyWalkEntries.induct none ws
    (fun pre t => copyWalkTree none ws pre t
      = (walkTree t).map (fun pc => (pre ++ pc.1, pc.2)))
    (fun pre es => copyWalkEntries none ws pre es
      = (walkEntries es).map (fun pc => (pre ++ pc.1, pc.2))) ?_ ?_ ?_ ?_ ?_
  · intro x c _
    simp [copyWalkTree, walkTree, spMatches]
  · intro x c hsp
    exact absurd rfl hsp
  · intro pre ds ih
    rw [show copyWalkTree none ws pre (.dir ds) = copyWalkEntries none ws pre ds from rfl,
      show walkTree (.dir ds) = walkEntries ds from rfl]
    exact ih
  · intro x
    simp [copyWalkEntries, walkEntries]
  · intro pre n t es ih1 ih2
    rw [copyWalkEntries, walkEntries, List.map_append, ih1, ih2, List.map_map]
    congr 1
    apply List.map_congr_left
    intro pc _
    simp

theorem mkdirp_readFile (fs : Fs) (p q : Path) : (fs.mkdirp p).readFile q = fs.readFile q := rfl

theorem readFile_writeFile_same (fs : Fs) (p : Path) (c : String) :
    (fs.writeFile p c).readFile p = some c := by
  simp [Fs.writeFile, Fs.readFile, List.find?]

theorem find?_filter_keyne (p q : Path) (hne : p ≠ q) :
    ∀ l : List (Path × String),
      (l.filter (fun e => !decide (e.1 = p))).find? (fun e => decide (e.1 = q))
        = l.find? (fun e => decide (e.1 = q)) := by
  intro l
  induction l with
  | nil => rfl
  | cons e rest ih =>
    rw [List.filter_cons]
    by_cases hp : e.1 = p
    · have hq : ¬(e.1 = q) := fun hc => hne (by rw [← hp, hc])
      rw [if_neg (by simp [hp]), List.find?_cons_of_neg _ (by simp [hq]), ih]
    · rw [if_pos (by simp [hp])]
      by_cases hq : e.1 = q
      · rw [List.find?_cons_of_pos _ (by simp [hq]), List.find?_cons_of_pos _ (by simp [hq])]
      · rw [List.find?_cons_of_neg _ (by simp [hq]), List.find?_cons_of_neg _ (by simp [hq]), ih]

theorem readFile_writeFile_ne (fs : Fs) (p q : Path) (c : String) (hne : p ≠ q) :
    (fs.writeFile p c).readFile q = fs.readFile q := by
  show (((((p, c) :: fs.files.filter (fun e => !decide (e.1 = p))).find?
      (fun e => decide (e.1 = q)))).map (fun e => e.2)) = _
  rw [List.find?_cons_of_neg _ (by simp [hne]), find?_filter_keyne p q hne fs.files]
  rfl

theorem applyWrites_readFile_other (cwd : Path) (r : Path) :
    ∀ (writes : List (Path × String)) (fs : Fs),
      (∀ pc ∈ writes, pc.1 ≠ r) →
      (applyWrites fs cwd writes).readFile (cwd ++ r) = fs.readFile (cwd ++ r) := by
  intro writes
  induction writes with
  | nil => intro fs _; rfl
  | cons w rest ih =>
    intro fs hne
    have hstep : applyWrites fs cwd (w :: rest)
        = applyWrites ((fs.mkdirp (cwd ++ w.1).dropLast).writeFile (cwd ++ w.1) w.2)
            cwd rest := by
      simp [applyWrites]
    rw [hstep, ih _ (fun pc hpc => hne pc (List.mem_cons_of_mem _ hpc))]
    rw [readFile_writeFile_ne _ _ _ _
      (fun hc => hne w (List.mem_cons_self ..) (List.append_cancel_left hc))]
    exact mkdirp_readFile _ _ _

theorem applyWrites_readFile_hit (cwd : Path) (r : Path) (c : String) :
    ∀ (writes : List (Path × String)) (fs : Fs),
      (r, c) ∈ writes → (writes.map Prod.fst).Nodup →
      (applyWrites fs cwd writes).readFile (cwd ++ r) = some c := by
  intro writes
  induction writes with
  | nil => intro fs h; cases h
  | cons w rest ih =>
    intro fs hmem hnd
    have hstep : applyWrites fs cwd (w :: rest)
        = applyWrites ((fs.mkdirp (cwd ++ w.1).dropLast).writeFile (cwd ++ w.1) w.2)
            cwd rest := by
      simp [applyWrites]
    rcases List.mem_cons.mp hmem with rfl | hmem2
    · rw [hstep]
      have hnr : ∀ pc ∈ rest, pc.1 ≠ r := by
        intro pc hpc hc
        have hm : pc.1 ∈ rest.map Prod.fst := List.mem_map_of_mem Prod.fst hpc
        rw [hc] at hm
        exact (List.nodup_cons.mp hnd).1 hm
      rw [applyWrites_readFile_other cwd r rest _ hnr]
      exact readFile_writeFile_same _ _ _
    · rw [hstep]
      exact ih _ hmem2 (List.nodup_cons.mp hnd).2

/-- C5: `storeToVault` followed by `pullFromVault` with no path filter
rewrites every originally-collected readable file at its original relative
path in the project root with identical content, whatever the prior state of
the project root. -/
theorem store_pull_roundtrip (files : List VaultFile) (fs fs0 : Fs) (cwd : Path)
    (t : FTree)
    (hwf : wfTree t = true)
    (hrelne : ∀ vf ∈ files, vf.relativePath ≠ [])
    (hpfile : t.readFileAt ["vault", getWorkspaceName cwd] = none)
    (hpw : List.Pairwise (fun a b => diverges a.relativePath b.relativePath = true) files) :
    ∀ vf ∈ files, ∀ c, fs.readFile vf.path = some c →
      ((pullFromVault (storeToVaultModel files fs cwd t).remote fs0 cwd none).2).readFile
        (cwd ++ vf.relativePath) = some c := by
  intro vf hvf c hc
  obtain ⟨hwf1, hcase, hpf1, hpres1⟩ := storePhase_char files fs cwd t hwf hrelne hpfile hpw
  have hremote : (storeToVaultModel files fs cwd t).remote = storePhase files fs cwd t := by
    by_cases hbeq : FTree.beq (storePhase files fs cwd t) t = true
    · have := beq_eq_tree _ _ hbeq
      simp [storeToVaultModel, hbeq, this, beq_refl_tree]
    · simp [storeToVaultModel, hbeq]
  rw [hremote]
  have hpres := hpres1 vf hvf c hc
  rcases hcase with hnone | ⟨es2, hread, hne, hsub⟩
  · exfalso
    rw [readFileAt_append_none _ _ vf.relativePath hnone] at hpres
    cases hpres
  · have hfile2 : (FTree.dir es2).readFileAt vf.relativePath = some c := by
      rw [readFileAt_append_some _ (.dir es2) _ vf.relativePath hread] at hpres
      exact hpres
    have hwalkmem : (vf.relativePath, c) ∈ walkEntries es2 :=
      readFileAt_mem_walk c vf.relativePath (.dir es2) hfile2
    have hpull : pullFromVault (storePhase files fs cwd t) fs0 cwd none
        = ((copyWalkEntries none (getWorkspaceName cwd) [] es2).length,
          applyWrites fs0 cwd (copyWalkEntries none (getWorkspaceName cwd) [] es2)) := by
      rw [pullFromVault]
      simp only [copyFromVault]
      rw [hread]
    rw [hpull]
    have hweq : copyWalkEntries none (getWorkspaceName cwd) [] es2 = walkEntries es2 := by
      rw [copyWalk_none_eq (getWorkspaceName cwd) [] es2]
      simp
    rw [hweq]
    apply applyWrites_readFile_hit cwd vf.relativePath c (walkEntries es2) fs0 hwalkmem
    have hwfsub : wfTree (.dir es2) = true :=
      readAt_wfTree ["vault", getWorkspaceName cwd] _ (.dir es2) hwf1 hread
    exact wf_walk_nodup es2 (by simpa [wfTree] using hwfsub)

theorem store_pull_roundtrip_witness :
    ((pullFromVault
        (storeToVaultModel [⟨["p", "a.md"], ["a.md"]⟩, ⟨["p", "b", "c.md"], ["b", "c.md"]⟩]
          ⟨[(["p", "a.md"], "hello"), (["p", "b", "c.md"], "world")], []⟩ ["p"]
          (.dir [("vault", .dir [(".gitkeep", .file "")])])).remote
        ⟨[], []⟩ ["p"] none).2).readFile ["p", "b", "c.md"] = some "world" := by
  have h := store_pull_roundtrip
    [⟨["p", "a.md"], ["a.md"]⟩, ⟨["p", "b", "c.md"], ["b", "c.md"]⟩]
    ⟨[(["p", "a.md"], "hello"), (["p", "b", "c.md"], "world")], []⟩ ⟨[], []⟩ ["p"]
    (.dir [("vault", .dir [(".gitkeep", .file "")])])
    (by decide) (by decide) rfl (by decide)
    ⟨["p", "b", "c.md"], ["b", "c.md"]⟩ (by decide) "world" rfl
  simpa using h

end AgVault
